import Mathlib

/-!
Verification of the rsync-go repository against its specification.

The Go sources are shallowly embedded: bytes are natural numbers below 256,
byte slices are lists, `uint32` arithmetic is natural-number arithmetic with
explicit reduction modulo 2^32, and the strong hasher (`hash.Hash`, by
default `crypto/md5`) is a function parameter.  Streams (`io.Reader`,
`io.ReadSeeker`) are modelled with `bytes.Reader` semantics: a read returns
as many of the remaining bytes as fit, and end-of-file is reported only by
a read that returns zero bytes.  Go run-time panics (slice bounds, index
out of range) are modelled explicitly: functions that can panic return an
`Option`, or a step outcome with a dedicated crash constructor.
-/

namespace Rsync

/-- 2^16, the modulus `_M` used by the rolling checksum (rsync.go line 23). -/
def M : Nat := 65536

/-- 2^32, the modulus of Go `uint32` arithmetic. -/
def U32 : Nat := 4294967296

/-- Go `uint32` addition. -/
def add32 (a b : Nat) : Nat := (a % U32 + b % U32) % U32

/-- Go `uint32` subtraction (wrapping). -/
def sub32 (a b : Nat) : Nat := (a % U32 + (U32 - b % U32)) % U32

/-- Go `uint32` multiplication. -/
def mul32 (a b : Nat) : Nat := (a % U32 * (b % U32)) % U32

/-- `DefaultBlockSize` (rsync.go line 19). -/
def DefaultBlockSize : Nat := 65536

/-- `DefaultMaxDataOp` (rsync.go line 20). -/
def DefaultMaxDataOp : Nat := 655360

/-- Go slice expression `l[i:j]`: `none` models the run-time panic when the
bounds are invalid. -/
def goSlice (l : List Nat) (i j : Nat) : Option (List Nat) :=
  if i ≤ j ∧ j ≤ l.length then some ((l.drop i).take (j - i)) else none

/-- Go index expression `l[i]`: `none` models the run-time panic. -/
def goIdx (l : List Nat) (i : Nat) : Option Nat := l.get? i

/-- Overwrite `l` starting at position `p` with the bytes `xs`
(the effect of reading into the sub-slice `l[p : p + xs.length]`). -/
def writeRange (l : List Nat) (p : Nat) (xs : List Nat) : List Nat :=
  l.take p ++ xs ++ l.drop (p + xs.length)

/-- The rolling checksum `βhash` (rsync.go lines 280-290).  Both running
sums are accumulated in wrapping `uint32` arithmetic; the result is
`(β, β1, β2)` with `β = (a mod M) + M * (b mod M)`. -/
def βhash (v : List Nat) : Nat × Nat × Nat :=
  let L := v.length
  let ab := v.enum.foldl
    (fun (ab : Nat × Nat) (iv : Nat × Nat) =>
      (add32 ab.1 iv.2,
       add32 ab.2 (mul32 (add32 (sub32 ((L - 1) % U32) iv.1) 1) iv.2)))
    (0, 0)
  (ab.1 % M + M * (ab.2 % M), ab.1 % M, ab.2 % M)

/-- `BlockHash` (rsync.go lines 41-45). -/
structure BlockHash where
  index : Nat
  strongHash : List Nat
  weakHash : Nat
  deriving DecidableEq, Repr

/-- Operation tag `BLOCK` (rsync.go line 29: `BLOCK OpType = iota`). -/
def OpBLOCK : Nat := 0

/-- Operation tag `DATA` (rsync.go line 30). -/
def OpDATA : Nat := 1

/-- `Operation` (rsync.go lines 34-38).  `typ` is the Go `OpType` byte. -/
structure Operation where
  typ : Nat
  blockIndex : Nat
  data : List Nat
  deriving DecidableEq, Repr

/-- A strong hasher: `hash.Hash` reduced to its input/output behaviour
(reset, write the block, sum). -/
def Hasher : Type := List Nat → List Nat

/-- The `RSync` configuration struct (rsync.go lines 51-57).  Go `int`
fields are modelled as `Nat` (the normalization test `<= 0` becomes
`= 0`); the nilable `UniqueHasher` is an `Option`. -/
structure RSync where
  blockSize : Nat
  maxDataOp : Nat
  uniqueHasher : Option Hasher

/-- `findUniqueHash`'s search loop (rsync.go lines 271-276): first entry
of the bucket whose strong hash equals `hashValue`. -/
def findUniqueHashLoop (hh : List BlockHash) (hashValue : List Nat) : Nat × Bool :=
  match hh with
  | [] => (0, false)
  | b :: rest =>
    if b.strongHash = hashValue then (b.index, true)
    else findUniqueHashLoop rest hashValue

/-- `findUniqueHash` (rsync.go lines 267-277). -/
def findUniqueHash (hh : List BlockHash) (hashValue : List Nat) : Nat × Bool :=
  if hashValue.length = 0 then (0, false) else findUniqueHashLoop hh hashValue

/-- The bucket `hashLookup[key]` of the weak-hash index built by
`CreateDelta` (rsync.go lines 160-165): map insertion preserves the
signature order inside each bucket, so the bucket is the in-order filter. -/
def hashLookup (sig : List BlockHash) (key : Nat) : List BlockHash :=
  sig.filter (fun e => e.weakHash = key)

/-- One pass of `CreateSignature`'s loop (rsync.go lines 86-106), reading
`bs`-sized blocks with `io.ReadAtLeast` semantics: a full read continues,
a short read emits the final short block and stops, a zero read stops. -/
def sigLoop (h : Hasher) (bs : Nat) : Nat → Nat → List Nat → List BlockHash
  | 0, _, _ => []
  | fuel + 1, index, rem =>
    let n := min bs rem.length
    if n = 0 then []
    else
      let block := rem.take n
      ⟨index, h block, (βhash block).1⟩ ::
        (if n < bs then [] else sigLoop h bs fuel (index + 1) (rem.drop bs))

/-- Core of `RSync.CreateSignature` (rsync.go lines 73-108) for an
already-normalized block size. -/
def createSignature (h : Hasher) (bs : Nat) (target : List Nat) : List BlockHash :=
  sigLoop h bs (target.length + 1) 0 target

/-- The scanner state of `CreateDelta` (rsync.go lines 167-179): the
single byte buffer, the `section` cursors, the rolling-hash registers and
the control flags, together with the bytes not yet read from the source. -/
structure DState where
  buffer : List Nat
  validTo : Nat
  prevValidTo : Nat
  sumTail : Nat
  sumHead : Nat
  dataTail : Nat
  dataHead : Nat
  aPop : Nat
  bWeak : Nat
  b1 : Nat
  b2 : Nat
  blockIndex : Nat
  rolling : Bool
  dirty : Bool
  lastRun : Bool
  src : List Nat
  deriving Repr

/-- Outcome of one iteration of `CreateDelta`'s main loop: continue with a
new state, leave the loop (the `break` on a zero-byte read), or crash with
a Go run-time panic (slice bounds / index out of range). -/
inductive DStep where
  | cont (st : DState)
  | halt
  | crash
  deriving Repr

/-- The static context of a `CreateDelta` run: normalized block size and
max-data-op, the strong hasher, and the signature (from which the weak
hash index is built). -/
structure DCtx where
  bs : Nat
  mdo : Nat
  h : Hasher
  sig : List BlockHash

/-- Emit step of one `CreateDelta` iteration (rsync.go lines 230-254):
pending-data flush, then either the matched-block emission or the
one-byte slide. -/
def deltaEmit (c : DCtx) (st : DState) (found : Bool) : List Operation × DStep :=
  -- pending-data flush (lines 230-234)
  let flushRes :=
    if st.dirty = true ∧ (found = true ∨ st.dataTail + c.mdo ≤ st.dataHead ∨ st.lastRun = true) then
      match goSlice st.buffer st.dataTail st.dataHead with
      | none => none
      | some bytes =>
        some ([Operation.mk OpDATA 0 bytes], { st with dirty := false, dataTail := st.dataHead })
    else some ([], st)
  match flushRes with
  | none => ([], DStep.crash)
  | some (ems, st) =>
    if found then
      -- matched block (lines 235-242)
      (ems ++ [Operation.mk OpBLOCK st.blockIndex []],
       DStep.cont { st with dataTail := st.sumHead, rolling := false,
                            sumTail := st.sumTail + c.bs, dataHead := st.sumTail + c.bs })
    else
      -- slide (lines 243-254); `aPop` is read only when not `lastRun`
      match (if st.lastRun = false then goIdx st.buffer st.sumTail else some st.aPop) with
      | none => (ems, DStep.crash)
      | some a =>
        (ems, DStep.cont { st with aPop := a, dirty := true, sumTail := st.sumTail + 1,
                                   dataHead := st.sumTail + 1 })

/-- Match probe of one `CreateDelta` iteration (rsync.go lines 226-229):
on a weak-hash bucket hit (and not `lastRun`) confirm with the strong
hash; `blockIndex` is overwritten by `findUniqueHash`'s result. -/
def deltaProbe (c : DCtx) (st : DState) : List Operation × DStep :=
  if hashLookup c.sig st.bWeak ≠ [] ∧ st.lastRun = false then
    match goSlice st.buffer st.sumTail st.sumHead with
    | none => ([], DStep.crash)
    | some w =>
      let p := findUniqueHash (hashLookup c.sig st.bWeak) (c.h w)
      deltaEmit c { st with blockIndex := p.1 } p.2
  else deltaEmit c st false

/-- Window advance and hash of one `CreateDelta` iteration (rsync.go
lines 215-225): set `sum.head`, then either seed `βhash` or update it
incrementally in wrapping `uint32` arithmetic. -/
def deltaHash (c : DCtx) (st₀ : DState) : List Operation × DStep :=
  let st := { st₀ with sumHead := min (st₀.sumTail + c.bs) st₀.validTo }
  if st.rolling = false then
    match goSlice st.buffer st.sumTail st.sumHead with
    | none => ([], DStep.crash)
    | some w =>
      let t := βhash w
      deltaProbe c { st with bWeak := t.1, b1 := t.2.1, b2 := t.2.2, rolling := true }
  else
    match (if st.sumHead = 0 then none else goIdx st.buffer (st.sumHead - 1)) with
    | none => ([], DStep.crash)
    | some aPush =>
      let nb1 := add32 (sub32 st.b1 st.aPop) aPush % M
      let len32 := (st.sumHead + U32 - st.sumTail) % U32
      let nb2 := add32 (sub32 st.b2 (mul32 len32 st.aPop)) nb1 % M
      deltaProbe c { st with b1 := nb1, b2 := nb2, bWeak := nb1 + M * nb2 }

/-- Steps 2-6 of one `CreateDelta` iteration, beginning with the
wrapped-data flush (rsync.go lines 211-214). -/
def deltaRest (c : DCtx) (st : DState) : List Operation × DStep :=
  if st.dataTail > st.dataHead then
    match goSlice st.buffer st.dataTail st.prevValidTo with
    | none => ([], DStep.crash)
    | some bytes =>
      let r := deltaHash c { st with dataTail := 0 }
      (Operation.mk OpDATA 0 bytes :: r.1, r.2)
  else deltaHash c st

/-- The refill read (rsync.go lines 192-209): read at least one block
with `io.ReadAtLeast`; a short read sets `lastRun`/`dirty` and extends
`data.head`; a zero read breaks out of the loop. -/
def deltaRead (c : DCtx) (st : DState) : List Operation × DStep :=
  if st.validTo + c.bs ≤ st.buffer.length then
    let n := min c.bs st.src.length
    let st' := { st with buffer := writeRange st.buffer st.validTo (st.src.take n),
                         validTo := st.validTo + n, src := st.src.drop n }
    if n = 0 then ([], DStep.halt)
    else if n < c.bs then
      deltaRest c { st' with lastRun := true, dirty := true, dataHead := st'.validTo }
    else deltaRest c st'
  else ([], DStep.crash)

/-- One full iteration of `CreateDelta`'s main loop (rsync.go lines
181-255): refill (with buffer wrap, lines 183-191) when the window head
has reached the valid high-water mark, then the remaining steps. -/
def deltaBody (c : DCtx) (st : DState) : List Operation × DStep :=
  if st.sumHead ≥ st.validTo then
    if st.validTo + c.bs > st.buffer.length then
      deltaRead c { st with prevValidTo := st.validTo, validTo := 0, sumTail := 0 }
    else deltaRead c st
  else deltaRest c st

/-- `CreateDelta`'s main loop `for !lastRun` (rsync.go line 181), with
explicit fuel.  The fuel supplied by `deltaRun` dominates the iteration
count of every run, so exhaustion is unreachable from the entry state. -/
def deltaLoop (c : DCtx) : Nat → DState → List Operation
  | 0, _ => []
  | fuel + 1, st =>
    if st.lastRun then []
    else
      match deltaBody c st with
      | (ems, DStep.cont st') => ems ++ deltaLoop c fuel st'
      | (ems, _) => ems

/-- The entry state of `CreateDelta` (rsync.go lines 172-179): a zeroed
buffer of capacity `3*bs + mdo` and all cursors at zero. -/
def deltaInit (bs mdo : Nat) (source : List Nat) : DState :=
  ⟨List.replicate (bs * 3 + mdo) 0, 0, 0, 0, 0, 0, 0, 0, 0, 0, 0, 0,
   false, false, false, source⟩

/-- Fuel that dominates the iteration count of any `CreateDelta` run. -/
def deltaFuel (bs mdo : Nat) (source : List Nat) : Nat :=
  (source.length + 2) * (bs * 3 + mdo + 2)

/-- Core of `RSync.CreateDelta` (rsync.go lines 149-257) for normalized
configuration: the list of operations sent on the channel. -/
def deltaRun (h : Hasher) (bs mdo : Nat) (sig : List BlockHash) (source : List Nat) :
    List Operation :=
  deltaLoop ⟨bs, mdo, h, sig⟩ (deltaFuel bs mdo source) (deltaInit bs mdo source)

/-- Core of `RSync.ApplyDelta` (rsync.go lines 111-146): the bytes written
to `alignedTarget`.  For a `BLOCK` op the seek-and-read of up to one block
at offset `bs * index` yields `(basis.drop (bs * i)).take bs`; a zero-byte
read (`io.EOF`) skips the write, which coincides with appending the empty
list.  Operations of any other type fall through the `switch` unchanged.
No modelled path returns an error: write errors cannot occur on the pure
output accumulator and short basis reads are accepted (lines 125-132). -/
def applyDelta (bs : Nat) (basis : List Nat) : List Operation → List Nat
  | [] => []
  | op :: rest =>
    (if op.typ = OpBLOCK then (basis.drop (bs * op.blockIndex)).take bs
     else if op.typ = OpDATA then op.data
     else []) ++ applyDelta bs basis rest

/-- `RSync.CreateSignature` (rsync.go lines 73-108) including the
normalization of the configuration; `md5` stands for the external
`crypto/md5` default hasher.  Returns the updated configuration (the Go
method mutates its receiver) and the emitted signature. -/
def RSync.CreateSignature (md5 : Hasher) (r : RSync) (target : List Nat) :
    RSync × List BlockHash :=
  let r := if r.blockSize = 0 then { r with blockSize := DefaultBlockSize } else r
  let r := if r.uniqueHasher.isNone then { r with uniqueHasher := some md5 } else r
  (r, createSignature (r.uniqueHasher.getD md5) r.blockSize target)

/-- `RSync.CreateDelta` (rsync.go lines 149-257) including normalization. -/
def RSync.CreateDelta (md5 : Hasher) (r : RSync) (source : List Nat)
    (sig : List BlockHash) : RSync × List Operation :=
  let r := if r.blockSize = 0 then { r with blockSize := DefaultBlockSize } else r
  let r := if r.maxDataOp = 0 then { r with maxDataOp := DefaultMaxDataOp } else r
  let r := if r.uniqueHasher.isNone then { r with uniqueHasher := some md5 } else r
  (r, deltaRun (r.uniqueHasher.getD md5) r.blockSize r.maxDataOp sig source)

/-- `RSync.ApplyDelta` (rsync.go lines 111-146) including normalization. -/
def RSync.ApplyDelta (r : RSync) (basis : List Nat) (ops : List Operation) :
    RSync × List Nat :=
  let r := if r.blockSize = 0 then { r with blockSize := DefaultBlockSize } else r
  (r, applyDelta r.blockSize basis ops)

/-! ### sbuffer (src/sbuffer/sbuffer.go) -/

/-- The `buffer` struct of package sbuffer (sbuffer.go lines 17-22): the
backing array, the two cursors, and the remaining bytes of the upstream
reader (modelled with `bytes.Reader` semantics). -/
structure SBuf where
  backer : List Nat
  tail : Nat
  head : Nat
  up : List Nat
  deriving Repr

/-- One upstream call `b.Read(b.backer[b.head:])`: returns the byte count,
whether the error was `io.EOF`, and the updated state.  An exhausted
upstream yields `(0, EOF)`; otherwise as many bytes as fit are copied in. -/
def sbRead (b : SBuf) : Nat × Bool × SBuf :=
  if b.up.length = 0 then (0, true, b)
  else
    let n := min (b.backer.length - b.head) b.up.length
    (n, false, { b with backer := writeRange b.backer b.head (b.up.take n), up := b.up.drop n })

/-- The read loop of `buffer.Next` (sbuffer.go lines 58-65): read until
`tail + needed ≤ head` or the upstream errors.  Returns the state and
whether an `io.EOF` was hit.  The fuel passed by `SBuf.next` dominates the
iteration count. -/
def sbFill : Nat → Nat → SBuf → SBuf × Bool
  | 0, _, b => (b, false)
  | fuel + 1, needed, b =>
    if b.tail + needed > b.head then
      let r := sbRead b
      let b' := { r.2.2 with head := r.2.2.head + r.1 }
      if r.2.1 then (b', true) else sbFill fuel needed b'
    else (b, false)

/-- `buffer.Next` (sbuffer.go lines 45-67).  `none` models the panic
`ErrNeedCap` (and Go slice-bounds panics on corrupt states); otherwise the
returned slice is `backer[tail : min (tail+needed) head]` together with
the `io.EOF` flag of the read loop. -/
def SBuf.next (b : SBuf) (needed : Nat) : Option (List Nat × Bool × SBuf) :=
  if needed > b.backer.length then none
  else
    let compacted :=
      if b.tail + needed > b.backer.length then
        match goSlice b.backer b.tail b.head with
        | none => none
        | some block =>
          some { b with backer := writeRange b.backer 0 block, tail := 0, head := block.length }
      else some b
    match compacted with
    | none => none
    | some b₁ =>
      let r := sbFill (b₁.up.length + 1) needed b₁
      match goSlice r.1.backer r.1.tail (min (r.1.tail + needed) r.1.head) with
      | none => none
      | some bytes => some (bytes, r.2, r.1)

/-- `buffer.Used` (sbuffer.go lines 69-74): advance `tail`; `none` models
the `ErrUsedTooMuch` panic raised when `tail` would pass `head`. -/
def SBuf.used (b : SBuf) (k : Nat) : Option SBuf :=
  if b.tail + k > b.head then none else some { b with tail := b.tail + k }

/-- The observable content of an `SBuf`: the unconsumed bytes already in
the backer (`backer[tail:head]`) followed by the bytes still held by the
upstream reader. -/
def sbContent (b : SBuf) : List Nat :=
  (b.backer.drop b.tail).take (b.head - b.tail) ++ b.up

/-! ### proto (src/proto/proto.go)

`proto.go` is written against a revision of package rsync that is not in
`src/` (it references `rsync.OpBlock`, `rsync.OpBlockRange`, `rsync.OpData`,
`rsync.OpHash`, a `BlockIndexEnd` field and an `OperationWriter` type that
the `src/rsync/rsync.go` revision lacks).  That operation type is modelled
from the spec below. -/

/-- `maxHashLength` (proto.go line 62). -/
def maxHashLength : Nat := 6144

/-- `maxDataLength` (proto.go line 63). -/
def maxDataLength : Nat := 1048576

/-- `binary.PutUvarint`: little-endian base-128 with continuation bits. -/
def putUvarint (x : Nat) : List Nat :=
  if h : x < 128 then [x]
  else (x % 128 + 128) :: putUvarint (x / 128)
  termination_by x
  decreasing_by exact Nat.div_lt_self (by omega) (by omega)

/-- The loop of `binary.Uvarint`; `x` carries the accumulated value (the
Go bitwise or equals addition here because the accumulated bits below `s`
and the incoming piece at bit `s` are disjoint), `s` the shift, `i` the
byte position.  Result `(value, n)` with `n ≤ 0` on truncation (`0`) or
64-bit overflow (negative), as in Go. -/
def uvarintAux : List Nat → Nat → Nat → Nat → Nat × Int
  | [], _, _, _ => (0, 0)
  | b :: rest, i, x, s =>
    if b < 128 then
      if i > 9 ∨ (i = 9 ∧ b > 1) then (0, -(Int.ofNat i + 1))
      else ((x + b * 2 ^ s) % 2 ^ 64, Int.ofNat i + 1)
    else uvarintAux rest (i + 1) ((x + b % 128 * 2 ^ s) % 2 ^ 64) (s + 7)

/-- `binary.Uvarint`. -/
def uvarint (buf : List Nat) : Nat × Int := uvarintAux buf 0 0 0

/-- `binary.BigEndian.PutUint32`. -/
def putUint32BE (v : Nat) : List Nat :=
  [v / 2 ^ 24 % 256, v / 2 ^ 16 % 256, v / 2 ^ 8 % 256, v % 256]

/-- One record of `Writer.SignatureWriter` (proto.go lines 179-196):
uvarint index, 4-byte big-endian weak hash, uvarint strong-hash length,
strong-hash bytes.  The Go fields are `uint64`/`uint32`, hence the moduli. -/
def encodeSigRecord (e : BlockHash) : List Nat :=
  putUvarint (e.index % 2 ^ 64) ++ putUint32BE (e.weakHash % 2 ^ 32) ++
    putUvarint (e.strongHash.length % 2 ^ 64) ++ e.strongHash

/-- The byte stream produced by writing a whole signature list through
`SignatureWriter`. -/
def encodeSignature (sig : List BlockHash) : List Nat :=
  (sig.map encodeSigRecord).flatten

/-- Modelled from the spec: the `Operation` type of the rsync revision
that proto.go imports (absent from src/), with the delta-body tags of
spec section 6: `0` BLOCK, `1` BLOCK_RANGE, `2` DATA, `3` HASH, and fields
`block_index`, `block_index_end`, `data`. -/
structure POperation where
  typ : Nat
  blockIndex : Nat
  blockIndexEnd : Nat
  data : List Nat
  deriving DecidableEq, Repr

/-- Spec section 6 tag `0` BLOCK (proto revision `rsync.OpBlock`). -/
def POpBlock : Nat := 0

/-- Spec section 6 tag `1` BLOCK_RANGE (`rsync.OpBlockRange`). -/
def POpBlockRange : Nat := 1

/-- Spec section 6 tag `2` DATA (`rsync.OpData`). -/
def POpData : Nat := 2

/-- Spec section 6 tag `3` HASH (`rsync.OpHash`). -/
def POpHash : Nat := 3

/-- The operations the wire format can carry faithfully: a known tag,
fields the record does not transmit left at their zero values, values
within the encoder's `uint64` range, a header that fits the decoder's
10-byte read window, and a payload that fits the decoder's 32 KiB
sbuffer. -/
def POperation.wellFormed (op : POperation) : Prop :=
  (op.typ = POpBlock ∧ op.blockIndex < 2 ^ 64 ∧ op.blockIndexEnd = 0 ∧ op.data = [] ∧
    1 + (putUvarint op.blockIndex).length ≤ 10) ∨
  (op.typ = POpBlockRange ∧ op.blockIndex < 2 ^ 64 ∧ op.blockIndexEnd < 2 ^ 64 ∧
    op.data = [] ∧
    1 + (putUvarint op.blockIndex).length + (putUvarint op.blockIndexEnd).length ≤ 10) ∨
  ((op.typ = POpData ∨ op.typ = POpHash) ∧ op.blockIndex = 0 ∧ op.blockIndexEnd = 0 ∧
    op.data.length ≤ 32768)

/-- The operations delivered on the main channel by `ReadOperations`:
every non-`HASH` operation, in stream order. -/
def mainOps : List POperation → List POperation
  | [] => []
  | op :: rest => if op.typ = POpHash then mainOps rest else op :: mainOps rest

/-- The operations delivered on the hash channel by `ReadOperations`. -/
def hashOps : List POperation → List POperation
  | [] => []
  | op :: rest => if op.typ = POpHash then op :: hashOps rest else hashOps rest

/-- One record of `Writer.OperationWriter` (proto.go lines 207-242); `none`
models the `panic("Unreachable.")` on an unknown tag. -/
def encodeOpRecord (op : POperation) : Option (List Nat) :=
  if op.typ = POpBlock then
    some (op.typ :: putUvarint (op.blockIndex % 2 ^ 64))
  else if op.typ = POpBlockRange then
    some (op.typ :: (putUvarint (op.blockIndex % 2 ^ 64) ++ putUvarint (op.blockIndexEnd % 2 ^ 64)))
  else if op.typ = POpData ∨ op.typ = POpHash then
    some (op.typ :: (putUvarint (op.data.length % 2 ^ 64) ++ op.data))
  else none

/-- The byte stream produced by writing an operation sequence through
`OperationWriter`. -/
def encodeOps : List POperation → Option (List Nat)
  | [] => some []
  | op :: rest =>
    match encodeOpRecord op, encodeOps rest with
    | some bytes, some more => some (bytes ++ more)
    | _, _ => none

/-- One iteration of `Reader.ReadAllSignatures` (proto.go lines 307-357)
over the sbuffer; `none` models the panics (`ErrBadVarintRead`,
`ErrHashTooLong`, slice bounds).  `acc` accumulates parsed records. -/
def readSigLoop : Nat → SBuf → List BlockHash → Option (List BlockHash)
  | 0, _, _ => none
  | fuel + 1, rb, acc =>
    match rb.next 24 with
    | none => none
    | some (buff, eof₁, rb) =>
      if buff.length = 0 then some acc
      else
        let p₁ := uvarint buff
        if p₁.2 ≤ 0 then none
        else
          let at₁ := p₁.2.toNat
          match goIdx buff at₁, goIdx buff (at₁ + 1), goIdx buff (at₁ + 2), goIdx buff (at₁ + 3) with
          | some w0, some w1, some w2, some w3 =>
            let weak := w0 * 2 ^ 24 + w1 * 2 ^ 16 + w2 * 2 ^ 8 + w3
            let at₂ := at₁ + 4
            match goSlice buff at₂ buff.length with
            | none => none
            | some rest₁ =>
              let p₂ := uvarint rest₁
              if p₂.2 ≤ 0 then none
              else
                let at₃ := at₂ + p₂.2.toNat
                let hashLen := p₂.1
                if hashLen > maxHashLength then none
                else
                  match rb.used at₃ with
                  | none => none
                  | some rb =>
                    match rb.next hashLen with
                    | none => none
                    | some (buff₂, eof₂, rb) =>
                      match goSlice buff₂ 0 hashLen with
                      | none => none
                      | some strong =>
                        match rb.used hashLen with
                        | none => none
                        | some rb =>
                          let acc := acc ++ [⟨p₁.1, strong, weak⟩]
                          if eof₁ ∨ eof₂ then some acc
                          else readSigLoop fuel rb acc
          | _, _, _, _ => none

/-- `Reader.ReadAllSignatures` (proto.go lines 291-360) applied to the
body bytes, using a 32 KiB sbuffer (line 305). -/
def readAllSignatures (body : List Nat) : Option (List BlockHash) :=
  readSigLoop (body.length + 2) ⟨List.replicate 32768 0, 0, 0, body⟩ []

/-- One iteration of `Reader.ReadOperations` (proto.go lines 373-450);
`none` models the panics.  `accM`/`accH` accumulate the operations sent on
the main and the hash channel. -/
def readOpsLoop : Nat → SBuf → List POperation → List POperation →
    Option (List POperation × List POperation)
  | 0, _, _, _ => none
  | fuel + 1, rb, accM, accH =>
    match rb.next 10 with
    | none => none
    | some (buff, eof₁, rb) =>
      if buff.length = 0 then some (accM, accH)
      else
        match goIdx buff 0 with
        | none => none
        | some tag =>
          let parsed :
              Option (POperation × SBuf × Bool) :=
            if tag = POpBlock then
              match goSlice buff 1 buff.length with
              | none => none
              | some r₁ =>
                let p := uvarint r₁
                if p.2 ≤ 0 then none
                else
                  match rb.used (1 + p.2.toNat) with
                  | none => none
                  | some rb => some (⟨tag, p.1, 0, []⟩, rb, false)
            else if tag = POpBlockRange then
              match goSlice buff 1 buff.length with
              | none => none
              | some r₁ =>
                let p := uvarint r₁
                if p.2 ≤ 0 then none
                else
                  let at₁ := 1 + p.2.toNat
                  match goSlice buff at₁ buff.length with
                  | none => none
                  | some r₂ =>
                    let q := uvarint r₂
                    if q.2 ≤ 0 then none
                    else
                      match rb.used (at₁ + q.2.toNat) with
                      | none => none
                      | some rb => some (⟨tag, p.1, q.1, []⟩, rb, false)
            else if tag = POpData ∨ tag = POpHash then
              match goSlice buff 1 buff.length with
              | none => none
              | some r₁ =>
                let p := uvarint r₁
                if p.2 ≤ 0 then none
                else
                  let dataLen := p.1
                  if dataLen > maxDataLength then none
                  else
                    match rb.used (1 + p.2.toNat) with
                    | none => none
                    | some rb =>
                      match rb.next dataLen with
                      | none => none
                      | some (buff₂, eof₂, rb) =>
                        match goSlice buff₂ 0 dataLen with
                        | none => none
                        | some dat =>
                          match rb.used dataLen with
                          | none => none
                          | some rb => some (⟨tag, 0, 0, dat⟩, rb, eof₂)
            else none
          match parsed with
          | none => none
          | some (op, rb, eof₂) =>
            let accM := if op.typ = POpHash then accM else accM ++ [op]
            let accH := if op.typ = POpHash then accH ++ [op] else accH
            if eof₁ ∨ eof₂ then some (accM, accH)
            else readOpsLoop fuel rb accM accH

/-- `Reader.ReadOperations` (proto.go lines 362-453) applied to the body
bytes: the operations delivered on the main channel and on the hash
channel. -/
def readOperations (body : List Nat) : Option (List POperation × List POperation) :=
  readOpsLoop (body.length + 2) ⟨List.replicate 32768 0, 0, 0, body⟩ [] []

/-- A concrete strong hasher used to instantiate theorems: prepend a tag
byte.  It is injective and never returns the empty digest, like the MD5
default it stands in for. -/
def hId : Hasher := fun v => 72 :: v

/-- The specification's second running sum (spec section 4.1):
`b = Σ (L−i)·v[i]` over the window, here in the recursion-friendly form
`bSum (x :: xs) = (|xs|+1)·x + bSum xs`. -/
def bSum : List Nat → Nat
  | [] => 0
  | x :: xs => (xs.length + 1) * x + bSum xs

end Rsync

/-! ## Theorems -/

namespace Rsync

/-- **C1** (code bug).  The round-trip law fails at `basis = []`,
`source = [65]`, `block_size = 1` (which lies in `[1, |source|+1]`),
`max_data_op = 1`: the final refill of `CreateDelta` reads zero bytes and
the loop breaks (rsync.go lines 207-209) before the pending literal byte
is flushed, so no operation at all is emitted and `ApplyDelta` writes `[]`
instead of `[65]`.  The code's own comment (lines 200-201, "Send any
remaining data") shows the intent that the spec states. -/
theorem C1_round_trip_failing_input :
    (RSync.CreateSignature hId ⟨1, 1, some hId⟩ []).2 = [] ∧
    (RSync.CreateDelta hId ⟨1, 1, some hId⟩ [65] []).2 = [] ∧
    (RSync.ApplyDelta ⟨1, 1, some hId⟩ [] []).2 = [] ∧
    ([] : List Nat) ≠ [65] := by
  refine ⟨rfl, ?_, rfl, by decide⟩
  rfl

/-- **C2** (counterexample).  On the claim's own instance
`basis = source = "AAAABB"`, `block_size = 4`, the delta is
`BLOCK(0), DATA("BB")`, not `BLOCK(0), BLOCK(1)`: the final refill returns
a short read, `lastRun` is set, and the match probe is skipped for the
tail window (rsync.go line 227 requires `!lastRun`), so the short tail is
emitted as DATA.  Hence a DATA op occurs and the BLOCK count is
`1 = ⌊6/4⌋`, not `⌈6/4⌉ = 2`. -/
theorem C2_self_copy_counterexample :
    (RSync.CreateDelta hId ⟨4, 8, some hId⟩ [65, 65, 65, 65, 66, 66]
      (RSync.CreateSignature hId ⟨4, 8, some hId⟩ [65, 65, 65, 65, 66, 66]).2).2 =
      [Operation.mk OpBLOCK 0 [], Operation.mk OpDATA 0 [66, 66]] ∧
    [Operation.mk OpBLOCK 0 [], Operation.mk OpDATA 0 [66, 66]] ≠
      [Operation.mk OpBLOCK 0 [], Operation.mk OpBLOCK 1 []] := by
  exact ⟨by rfl, by decide⟩

/-- **C3** (counterexample).  With `block_size = 4`, `max_data_op = 1`,
empty signature and the two-byte source `[65, 66]`, the single refill is a
short read: `lastRun` is set and `data.head` is extended to `validTo`
before the flush, so the emitted DATA payload has length `2 > max_data_op`. -/
theorem C3_payload_counterexample :
    (RSync.CreateDelta hId ⟨4, 1, some hId⟩ [65, 66] []).2 =
      [Operation.mk OpDATA 0 [65, 66]] ∧
    ¬ (Operation.mk OpDATA 0 [65, 66]).data.length ≤ 1 := by
  exact ⟨by rfl, by decide⟩

/-- **C6**.  For a `BLOCK(i)` operation, `ApplyDelta` seeks the basis to
byte offset `i * block_size`, copies up to `block_size` bytes from there
(the read is short exactly when fewer than `block_size` bytes remain, and
zero bytes past the end), writes what was read, and continues with the
remaining operations without error. -/
theorem C6_apply_block (bs : Nat) (basis : List Nat) (i : Nat) (d : List Nat)
    (rest : List Operation) :
    applyDelta bs basis (Operation.mk OpBLOCK i d :: rest) =
      (basis.drop (bs * i)).take bs ++ applyDelta bs basis rest ∧
    ((basis.drop (bs * i)).take bs).length = min bs (basis.length - bs * i) := by
  constructor
  · simp [applyDelta]
  · simp

/-- **C10**.  An operation whose type is neither `BLOCK` nor `DATA` (an
unknown tag, or a HASH-style op on the main channel) falls through the
`switch` of `ApplyDelta`: nothing is written, no error is produced, and
the subsequent operations are processed unchanged. -/
theorem C10_apply_skips_unknown (bs : Nat) (basis : List Nat) (t i : Nat)
    (d : List Nat) (rest : List Operation)
    (hb : t ≠ OpBLOCK) (hd : t ≠ OpDATA) :
    applyDelta bs basis (Operation.mk t i d :: rest) = applyDelta bs basis rest := by
  simp [applyDelta, hb, hd]

/-- Witness for `C10_apply_skips_unknown` at the unknown tag `2` (a HASH
op delivered on the main channel). -/
theorem C10_apply_skips_unknown_witness :
    (2 : Nat) ≠ OpBLOCK ∧ (2 : Nat) ≠ OpDATA ∧
    applyDelta 1 [5] (Operation.mk 2 0 [9] :: [Operation.mk OpDATA 0 [7]]) =
      applyDelta 1 [5] [Operation.mk OpDATA 0 [7]] :=
  ⟨by decide, by decide,
   C10_apply_skips_unknown 1 [5] 2 0 [9] [Operation.mk OpDATA 0 [7]]
     (by decide) (by decide)⟩

/-- **C8** (counterexample).  The configuration is not left unchanged in
general: with `BlockSize = 0` (Go `BlockSize <= 0`), `CreateSignature`
writes the default block size `65536` into the receiver (rsync.go lines
74-76), so the field differs from its value before the call. -/
theorem C8_mutation_counterexample :
    (RSync.CreateSignature hId ⟨0, 5, some hId⟩ []).1.blockSize = 65536 ∧
    (0 : Nat) ≠ 65536 := by
  exact ⟨rfl, by decide⟩

/-- **C8** (amended).  If the configuration fields consulted by a call are
already initialized — `BlockSize > 0` for all three calls, plus a non-nil
`UniqueHasher` for `CreateSignature`/`CreateDelta` and `MaxDataOp > 0` for
`CreateDelta` — then the call returns the configuration unchanged. -/
theorem C8_config_unchanged (md5 : Hasher) (r : RSync) (basis target source : List Nat)
    (ops : List Operation) (sig : List BlockHash) (hbs : r.blockSize ≠ 0) :
    (RSync.ApplyDelta r basis ops).1 = r ∧
    (r.uniqueHasher.isSome → (RSync.CreateSignature md5 r target).1 = r) ∧
    (r.uniqueHasher.isSome → r.maxDataOp ≠ 0 → (RSync.CreateDelta md5 r source sig).1 = r) := by
  refine ⟨?_, fun hu => ?_, fun hu hm => ?_⟩
  · simp [RSync.ApplyDelta, hbs]
  · simp [RSync.CreateSignature, hbs, Option.isNone_iff_eq_none]
    intro hnone
    rw [hnone] at hu
    simp at hu
  · simp [RSync.CreateDelta, hbs, hm, Option.isNone_iff_eq_none]
    intro hnone
    rw [hnone] at hu
    simp at hu

/-- Witness for `C8_config_unchanged` at a fully initialized
configuration. -/
theorem C8_config_unchanged_witness :
    (3 : Nat) ≠ 0 ∧
    (RSync.ApplyDelta ⟨3, 4, some hId⟩ [] []).1 = ⟨3, 4, some hId⟩ ∧
    (RSync.CreateSignature hId ⟨3, 4, some hId⟩ []).1 = ⟨3, 4, some hId⟩ ∧
    (RSync.CreateDelta hId ⟨3, 4, some hId⟩ [] []).1 = ⟨3, 4, some hId⟩ := by
  have h := C8_config_unchanged hId ⟨3, 4, some hId⟩ [] [] [] [] [] (by decide)
  exact ⟨by decide, h.1, h.2.1 rfl, h.2.2 rfl (by decide)⟩

end Rsync

namespace Rsync

theorem mod_M_of_mod_U32 (x : Nat) : x % U32 % M = x % M :=
  Nat.mod_mod_of_dvd x (by decide)

theorem sub32_eq (a b : Nat) (ha : a < U32) (hb : b ≤ a) : sub32 a b = a - b := by
  unfold sub32
  simp only [U32] at ha ⊢
  omega

theorem add32_eq (a b : Nat) (h : a + b < U32) : add32 a b = a + b := by
  unfold add32
  simp only [U32] at h ⊢
  omega

theorem mul32_eq_mod (a b : Nat) : mul32 a b = a * b % U32 :=
  (Nat.mul_mod a b U32).symm

theorem bSum_append_single (xs : List Nat) (y : Nat) :
    bSum (xs ++ [y]) = bSum xs + xs.sum + y := by
  induction xs with
  | nil => simp [bSum]
  | cons x xs ih => simp [bSum, ih]; ring

/-- The fold of `βhash` computes the two running sums modulo 2^32. -/
theorem βhash_fold (L : Nat) (hL : L < U32) :
    ∀ (v : List Nat) (k a b : Nat), k + v.length = L → a < U32 → b < U32 →
      (List.enumFrom k v).foldl
        (fun (ab : Nat × Nat) (iv : Nat × Nat) =>
          (add32 ab.1 iv.2,
           add32 ab.2 (mul32 (add32 (sub32 ((L - 1) % U32) iv.1) 1) iv.2)))
        (a, b) = ((a + v.sum) % U32, (b + bSum v) % U32) := by
  intro v
  induction v with
  | nil =>
    intro k a b hk ha hb
    simp [bSum, Nat.mod_eq_of_lt ha, Nat.mod_eq_of_lt hb]
  | cons x xs ih =>
    intro k a b hk ha hb
    have hk' : k + (xs.length + 1) = L := by simpa using hk
    have hL1 : L - 1 < U32 := by omega
    have e1 : (L - 1) % U32 = L - 1 := Nat.mod_eq_of_lt hL1
    have hw : add32 (sub32 ((L - 1) % U32) k) 1 = L - k := by
      rw [e1, sub32_eq (L - 1) k hL1 (by omega), add32_eq (L - 1 - k) 1 (by
        simp only [U32] at hL ⊢; omega)]
      omega
    have step : (List.enumFrom k (x :: xs)) = (k, x) :: List.enumFrom (k + 1) xs := rfl
    rw [step, List.foldl_cons]
    simp only [hw]
    have hU : 0 < U32 := by decide
    have ha' : add32 a x < U32 := Nat.mod_lt _ hU
    have hb' : add32 b (mul32 (L - k) x) < U32 := Nat.mod_lt _ hU
    rw [ih (k + 1) _ _ (by omega) ha' hb']
    have hlen : L - k = xs.length + 1 := by omega
    simp only [Prod.mk.injEq]
    constructor
    · show (add32 a x + xs.sum) % U32 = (a + (x :: xs).sum) % U32
      unfold add32
      simp only [List.sum_cons, U32]
      omega
    · show (add32 b (mul32 (L - k) x) + bSum xs) % U32 = (b + bSum (x :: xs)) % U32
      rw [mul32_eq_mod, hlen]
      unfold add32
      show ((b % U32 + (xs.length + 1) * x % U32 % U32) % U32 + bSum xs) % U32
          = (b + ((xs.length + 1) * x + bSum xs)) % U32
      generalize (xs.length + 1) * x = y
      generalize bSum xs = s
      simp only [U32]
      omega

/-- `βhash` in terms of the specification sums. -/
theorem βhash_eq (v : List Nat) (hL : v.length < U32) :
    βhash v = (v.sum % M + M * (bSum v % M), v.sum % M, bSum v % M) := by
  unfold βhash
  have h := βhash_fold v.length hL v 0 0 0 (by omega) (by decide) (by decide)
  simp only [List.enum] at *
  rw [h]
  simp [mod_M_of_mod_U32]

end Rsync

namespace Rsync

/-- **C4**: the O(1) rolling update of `CreateDelta` (rsync.go lines
221-224) — `β1' = (β1 - v₀ + v_in) mod 2^16`, `β2' = (β2 - L·v₀ + β1')
mod 2^16` in wrapping `uint32` arithmetic, `β' = β1' + 2^16·β2'` — equals
the full recomputation `βhash (v.tail ++ [v_in])` over the slid window. -/
theorem C4_rolling_hash_correct (v : List Nat) (vin : Nat) (hv : v ≠ [])
    (hL : v.length < U32) :
    add32 (sub32 (βhash v).2.1 v.headI) vin % M = (βhash (v.tail ++ [vin])).2.1 ∧
    add32 (sub32 (βhash v).2.2 (mul32 v.length v.headI))
        (add32 (sub32 (βhash v).2.1 v.headI) vin % M) % M
      = (βhash (v.tail ++ [vin])).2.2 ∧
    add32 (sub32 (βhash v).2.1 v.headI) vin % M
        + M * (add32 (sub32 (βhash v).2.2 (mul32 v.length v.headI))
            (add32 (sub32 (βhash v).2.1 v.headI) vin % M) % M)
      = (βhash (v.tail ++ [vin])).1 := by
  obtain ⟨x, xs, rfl⟩ := List.exists_cons_of_ne_nil hv
  have hxs : (x :: xs).length = xs.length + 1 := rfl
  have hLn : (xs ++ [vin]).length < U32 := by
    simp only [List.length_append, List.length_cons, List.length_nil] at hL ⊢
    omega
  simp only [List.tail_cons, List.headI_cons]
  rw [βhash_eq _ hL, βhash_eq _ hLn]
  simp only [List.sum_cons, List.length_cons]
  have hbv : bSum (x :: xs) = (xs.length + 1) * x + bSum xs := rfl
  have hbn : bSum (xs ++ [vin]) = bSum xs + xs.sum + vin := bSum_append_single xs vin
  have hsn : (xs ++ [vin]).sum = xs.sum + vin := by simp
  rw [hbv, hbn, hsn, mul32_eq_mod]
  have goal1 : add32 (sub32 ((x + xs.sum) % M) x) vin % M = (xs.sum + vin) % M := by
    unfold add32 sub32
    generalize xs.sum = s
    simp only [M, U32]
    omega
  have goal2 : add32 (sub32 (((xs.length + 1) * x + bSum xs) % M)
      ((xs.length + 1) * x % U32)) ((xs.sum + vin) % M) % M
      = (bSum xs + xs.sum + vin) % M := by
    unfold add32 sub32
    generalize hw : (xs.length + 1) * x = w
    generalize bSum xs = t
    generalize xs.sum = s
    simp only [M, U32]
    omega
  refine ⟨goal1, ?_, ?_⟩
  · rw [goal1]
    exact goal2
  · rw [goal1, goal2]

/-- Witness for `C4_rolling_hash_correct` at the window `[10, 20]` and the
incoming byte `30`. -/
theorem C4_rolling_hash_correct_witness :
    ([10, 20] : List Nat) ≠ [] ∧ ([10, 20] : List Nat).length < U32 ∧
    add32 (sub32 (βhash [10, 20]).2.1 ([10, 20] : List Nat).headI) 30 % M
      = (βhash (([10, 20] : List Nat).tail ++ [30])).2.1 :=
  ⟨by decide, by decide,
   (C4_rolling_hash_correct [10, 20] 30 (by decide) (by decide)).1⟩

end Rsync

namespace Rsync

theorem writeRange_length (l : List Nat) (p : Nat) (xs : List Nat)
    (h : p + xs.length ≤ l.length) : (writeRange l p xs).length = l.length := by
  unfold writeRange
  simp
  omega

theorem goSlice_writeRange (l : List Nat) (p : Nat) (xs : List Nat)
    (h : p + xs.length ≤ l.length) :
    goSlice (writeRange l p xs) p (p + xs.length) = some xs := by
  have hl := writeRange_length l p xs h
  unfold goSlice
  rw [if_pos (by constructor <;> omega)]
  congr 1
  rw [Nat.add_sub_cancel_left]
  unfold writeRange
  rw [List.append_assoc, List.drop_left' (by simp; omega), List.take_left' rfl]

theorem goSlice_empty (l : List Nat) (p : Nat) (h : p ≤ l.length) :
    goSlice l p p = some [] := by
  unfold goSlice
  rw [if_pos ⟨le_refl p, h⟩]
  simp

-- evaluation: case A (empty source at a refill point)
theorem scA (c : DCtx) (B : List Nat) (p pv ap b0 b1 b2 bi : Nat)
    (hbs : 0 < c.bs) (hlen : B.length = c.bs * 3 + c.mdo) :
    deltaBody c ⟨B, p, pv, p, p, p, p, ap, b0, b1, b2, bi, false, false, false, []⟩ =
      ([], DStep.halt) := by
  unfold deltaBody
  rw [if_pos (le_refl p)]
  by_cases hw : p + c.bs > B.length
  · rw [if_pos hw]
    unfold deltaRead
    rw [if_pos (by simp; omega)]
    simp
  · rw [if_neg hw]
    unfold deltaRead
    rw [if_pos (by simp; omega)]
    simp

end Rsync

namespace Rsync

theorem mem_hashLookup {sig : List BlockHash} {e : BlockHash} (he : e ∈ sig)
    (hk : e.weakHash = k) : e ∈ hashLookup sig k := by
  unfold hashLookup
  rw [List.mem_filter]
  exact ⟨he, by simp [hk]⟩

theorem hashLookup_ne_nil {sig : List BlockHash} {e : BlockHash} (he : e ∈ sig)
    (hk : e.weakHash = k) : hashLookup sig k ≠ [] :=
  List.ne_nil_of_mem (mem_hashLookup he hk)

theorem findUniqueHashLoop_found {hh : List BlockHash} {e : BlockHash} {hv : List Nat}
    (he : e ∈ hh) (hs : e.strongHash = hv) : (findUniqueHashLoop hh hv).2 = true := by
  induction hh with
  | nil => cases he
  | cons b rest ih =>
    unfold findUniqueHashLoop
    by_cases hb : b.strongHash = hv
    · rw [if_pos hb]
    · rw [if_neg hb]
      rcases List.mem_cons.mp he with h | h
      · subst h; exact absurd hs hb
      · exact ih h

theorem findUniqueHash_found {hh : List BlockHash} {e : BlockHash} {hv : List Nat}
    (hne : hv ≠ []) (he : e ∈ hh) (hs : e.strongHash = hv) :
    (findUniqueHash hh hv).2 = true := by
  unfold findUniqueHash
  rw [if_neg (by simpa [List.length_eq_zero] using hne)]
  exact findUniqueHashLoop_found he hs

-- evaluation: case C (full block available, block matches the signature)
theorem scC (c : DCtx) (B : List Nat) (p pv ap b0 b1 b2 bi : Nat) (rem : List Nat)
    (p' pv' : Nat)
    (hbs : 0 < c.bs) (hlen : B.length = c.bs * 3 + c.mdo) (hp : p ≤ B.length)
    (hrem : c.bs ≤ rem.length)
    (hmem : ∃ e ∈ c.sig, e.strongHash = c.h (rem.take c.bs) ∧
            e.weakHash = (βhash (rem.take c.bs)).1)
    (hne : c.h (rem.take c.bs) ≠ [])
    (hp' : p' = if B.length < p + c.bs then 0 else p)
    (hpv' : pv' = if B.length < p + c.bs then p else pv) :
    deltaBody c ⟨B, p, pv, p, p, p, p, ap, b0, b1, b2, bi, false, false, false, rem⟩ =
      ([Operation.mk OpBLOCK
          (findUniqueHash (hashLookup c.sig (βhash (rem.take c.bs)).1)
            (c.h (rem.take c.bs))).1 []],
       DStep.cont ⟨writeRange B p' (rem.take c.bs), p' + c.bs, pv',
                   p' + c.bs, p' + c.bs, p' + c.bs, p' + c.bs, ap,
                   (βhash (rem.take c.bs)).1, (βhash (rem.take c.bs)).2.1,
                   (βhash (rem.take c.bs)).2.2,
                   (findUniqueHash (hashLookup c.sig (βhash (rem.take c.bs)).1)
                     (c.h (rem.take c.bs))).1,
                   false, false, false, rem.drop c.bs⟩) := by
  obtain ⟨e, he, hstrong, hweak⟩ := hmem
  have hmin : min c.bs rem.length = c.bs := Nat.min_eq_left hrem
  have htklen : (rem.take c.bs).length = c.bs := by
    rw [List.length_take]
    exact hmin
  have hple : p' + c.bs ≤ B.length := by
    rw [hp']
    split
    · omega
    · omega
  -- refill
  unfold deltaBody
  rw [if_pos (le_refl p)]
  have hread : ∀ (q qv : Nat), q + c.bs ≤ B.length →
      deltaRead c ⟨B, q, qv, q, p, p, p, ap, b0, b1, b2, bi, false, false, false, rem⟩ =
      deltaRest c ⟨writeRange B q (rem.take c.bs), q + c.bs, qv, q, p, p, p, ap,
                   b0, b1, b2, bi, false, false, false, rem.drop c.bs⟩ := by
    intro q qv hq
    unfold deltaRead
    rw [if_pos (by simpa using hq)]
    simp only [hmin, List.take_take, min_self]
    rw [if_neg (by omega), if_neg (by omega)]
  have hrest : ∀ (q qv : Nat), q + c.bs ≤ B.length →
      deltaRest c ⟨writeRange B q (rem.take c.bs), q + c.bs, qv, q, p, p, p, ap,
                   b0, b1, b2, bi, false, false, false, rem.drop c.bs⟩ =
      ([Operation.mk OpBLOCK
          (findUniqueHash (hashLookup c.sig (βhash (rem.take c.bs)).1)
            (c.h (rem.take c.bs))).1 []],
       DStep.cont ⟨writeRange B q (rem.take c.bs), q + c.bs, qv,
                   q + c.bs, q + c.bs, q + c.bs, q + c.bs, ap,
                   (βhash (rem.take c.bs)).1, (βhash (rem.take c.bs)).2.1,
                   (βhash (rem.take c.bs)).2.2,
                   (findUniqueHash (hashLookup c.sig (βhash (rem.take c.bs)).1)
                     (c.h (rem.take c.bs))).1,
                   false, false, false, rem.drop c.bs⟩) := by
    intro q qv hq
    have hslice : goSlice (writeRange B q (rem.take c.bs)) q (q + c.bs) =
        some (rem.take c.bs) := by
      have h2 := goSlice_writeRange B q (rem.take c.bs) (by rw [htklen]; exact hq)
      rwa [htklen] at h2
    unfold deltaRest
    dsimp only
    rw [if_neg (by omega)]
    unfold deltaHash
    dsimp only
    simp only [min_self]
    rw [if_pos trivial]
    rw [hslice]
    show deltaProbe c _ = _
    unfold deltaProbe
    dsimp only
    rw [if_pos ⟨hashLookup_ne_nil he hweak, rfl⟩]
    rw [hslice]
    show deltaEmit c _ _ = _
    rw [findUniqueHash_found hne (mem_hashLookup he hweak) hstrong]
    unfold deltaEmit
    dsimp only
    rw [if_neg (by simp)]
    rfl
  by_cases hw : B.length < p + c.bs
  · rw [if_pos hw, hread 0 p (by omega), hrest 0 p (by omega)]
    have h0 : p' = 0 := by rw [hp', if_pos hw]
    have hv0 : pv' = p := by rw [hpv', if_pos hw]
    rw [h0, hv0]
  · rw [if_neg hw, hread p pv (by omega), hrest p pv (by omega)]
    have h0 : p' = p := by rw [hp', if_neg hw]
    have hv0 : pv' = pv := by rw [hpv', if_neg hw]
    rw [h0, hv0]

end Rsync

namespace Rsync

-- evaluation: case B (short non-empty tail at a refill point)
theorem scB (c : DCtx) (B : List Nat) (p pv ap b0 b1 b2 bi : Nat) (rem : List Nat)
    (hbs : 0 < c.bs) (hlen : B.length = c.bs * 3 + c.mdo) (hp : p ≤ B.length)
    (hrem0 : 0 < rem.length) (hremlt : rem.length < c.bs) :
    ∃ st', deltaBody c ⟨B, p, pv, p, p, p, p, ap, b0, b1, b2, bi, false, false, false, rem⟩ =
      ((if B.length < p + c.bs then [Operation.mk OpDATA 0 []] else []) ++
        [Operation.mk OpDATA 0 rem], DStep.cont st') ∧ st'.lastRun = true := by
  have hmin : min c.bs rem.length = rem.length := Nat.min_eq_right (le_of_lt hremlt)
  unfold deltaBody
  rw [if_pos (le_refl p)]
  by_cases hw : B.length < p + c.bs
  · -- wrap, then refill, wrap-flush of the empty abandoned region, data flush
    rw [if_pos hw]
    unfold deltaRead
    rw [if_pos (by simp; omega)]
    dsimp only
    simp only [hmin, List.take_length]
    rw [if_neg (by omega), if_pos hremlt]
    have hsl : goSlice (writeRange B 0 rem) 0 (0 + rem.length) = some rem :=
      goSlice_writeRange B 0 rem (by simp; omega)
    have hwl : (writeRange B 0 rem).length = B.length :=
      writeRange_length B 0 rem (by simp; omega)
    unfold deltaRest
    dsimp only
    rw [if_pos (by omega)]
    rw [show goSlice (writeRange B 0 rem) p p = some [] from goSlice_empty _ _ (by omega)]
    unfold deltaHash
    dsimp only
    simp only [eq_self_iff_true, if_true]
    rw [show min (0 + c.bs) (0 + rem.length) = 0 + rem.length by omega, hsl]
    dsimp only
    unfold deltaProbe
    dsimp only
    rw [if_neg (by simp)]
    unfold deltaEmit
    dsimp only
    rw [if_pos (by exact ⟨rfl, Or.inr (Or.inr rfl)⟩)]
    rw [hsl]
    rw [if_pos hw]
    dsimp only
    exact ⟨_, rfl, rfl⟩
  · -- no wrap
    rw [if_neg hw]
    unfold deltaRead
    rw [if_pos (by simp; omega)]
    dsimp only
    simp only [hmin, List.take_length]
    rw [if_neg (by omega), if_pos hremlt]
    have hsl : goSlice (writeRange B p rem) p (p + rem.length) = some rem :=
      goSlice_writeRange B p rem (by omega)
    unfold deltaRest
    dsimp only
    rw [if_neg (by omega)]
    unfold deltaHash
    dsimp only
    simp only [eq_self_iff_true, if_true]
    rw [show min (p + c.bs) (p + rem.length) = p + rem.length by omega, hsl]
    dsimp only
    unfold deltaProbe
    dsimp only
    rw [if_neg (by simp)]
    unfold deltaEmit
    dsimp only
    rw [if_pos (by exact ⟨rfl, Or.inr (Or.inr rfl)⟩)]
    rw [hsl]
    rw [if_neg hw]
    dsimp only
    exact ⟨_, rfl, rfl⟩

end Rsync

namespace Rsync

theorem deltaLoop_succ_cont (c : DCtx) (f : Nat) (st : DState) (hlr : st.lastRun = false)
    {ems : List Operation} {st' : DState} (hb : deltaBody c st = (ems, DStep.cont st')) :
    deltaLoop c (f + 1) st = ems ++ deltaLoop c f st' := by
  simp only [deltaLoop]
  rw [if_neg (by simp [hlr]), hb]

theorem deltaLoop_succ_halt (c : DCtx) (f : Nat) (st : DState) (hlr : st.lastRun = false)
    {ems : List Operation} (hb : deltaBody c st = (ems, DStep.halt)) :
    deltaLoop c (f + 1) st = ems := by
  simp only [deltaLoop]
  rw [if_neg (by simp [hlr]), hb]

theorem deltaLoop_lastRun (c : DCtx) (f : Nat) (st : DState) (hlr : st.lastRun = true) :
    deltaLoop c f st = [] := by
  cases f with
  | zero => rfl
  | succ f =>
    simp only [deltaLoop]
    rw [if_pos hlr]

theorem take_min_eq_take (bs : Nat) (rem : List Nat) :
    rem.take (min bs rem.length) = rem.take bs := by
  rcases le_total bs rem.length with h | h
  · rw [Nat.min_eq_left h]
  · rw [Nat.min_eq_right h, List.take_length, List.take_of_length_le h]

theorem sigLoop_mem (h : Hasher) (bs : Nat) (hbs : 0 < bs) :
    ∀ (k fuel idx : Nat) (rem : List Nat), rem.length ≤ fuel → bs * k < rem.length →
    (⟨idx + k, h ((rem.drop (bs * k)).take bs), (βhash ((rem.drop (bs * k)).take bs)).1⟩ :
      BlockHash) ∈ sigLoop h bs fuel idx rem := by
  intro k
  induction k with
  | zero =>
    intro fuel idx rem hfuel hlt
    simp only [Nat.mul_zero, List.drop_zero] at hlt ⊢
    cases fuel with
    | zero => omega
    | succ f =>
      unfold sigLoop
      rw [if_neg (by omega)]
      rw [take_min_eq_take]
      simp only [Nat.add_zero]
      exact List.mem_cons_self _ _
  | succ k ih =>
    intro fuel idx rem hfuel hlt
    have hbslt : bs < rem.length := by
      have : bs * (k + 1) = bs * k + bs := by ring
      omega
    cases fuel with
    | zero => omega
    | succ f =>
      unfold sigLoop
      rw [if_neg (by omega)]
      have hmin : min bs rem.length = bs := Nat.min_eq_left (le_of_lt hbslt)
      rw [if_neg (by omega)]
      refine List.mem_cons_of_mem _ ?_
      have hx := ih f (idx + 1) (rem.drop bs) (by rw [List.length_drop]; omega)
        (by rw [List.length_drop]
            have hh : bs * (k + 1) = bs * k + bs := by ring
            omega)
      have hdd : (rem.drop bs).drop (bs * k) = rem.drop (bs * (k + 1)) := by
        rw [List.drop_drop]
        congr 1
        ring
      rw [hdd] at hx
      have hidx : idx + 1 + k = idx + (k + 1) := by omega
      rw [hidx] at hx
      exact hx

theorem createSignature_mem (h : Hasher) (bs : Nat) (hbs : 0 < bs)
    (basis : List Nat) (k : Nat) (hlt : bs * k < basis.length) :
    (⟨k, h ((basis.drop (bs * k)).take bs), (βhash ((basis.drop (bs * k)).take bs)).1⟩ :
      BlockHash) ∈ createSignature h bs basis := by
  have hx := sigLoop_mem h bs hbs k (basis.length + 1) 0 basis (by omega) hlt
  simpa using hx

end Rsync

namespace Rsync

/-- Main self-copy run lemma: from an aligned scanner state, the loop
emits one BLOCK per full block of `rem` and at most a trailing DATA pair. -/
theorem sc_run (c : DCtx) (hbs : 0 < c.bs) (hmdo : 0 < c.mdo) (hne : ∀ v, c.h v ≠ []) :
    ∀ (n : Nat) (rem B : List Nat) (p pv ap b0 b1 b2 bi f : Nat),
    rem.length ≤ n →
    (∀ k, c.bs * k + c.bs ≤ rem.length →
      ∃ e ∈ c.sig, e.strongHash = c.h ((rem.drop (c.bs * k)).take c.bs) ∧
        e.weakHash = (βhash ((rem.drop (c.bs * k)).take c.bs)).1) →
    B.length = c.bs * 3 + c.mdo → p ≤ B.length →
    rem.length + 2 ≤ f →
    ∃ bl tl, deltaLoop c f ⟨B, p, pv, p, p, p, p, ap, b0, b1, b2, bi, false, false, false, rem⟩
        = bl ++ tl ∧
      (∀ op ∈ bl, op.typ = OpBLOCK) ∧
      bl.length = rem.length / c.bs ∧
      ((rem.length % c.bs = 0 ∧ tl = []) ∨
       (rem.length % c.bs ≠ 0 ∧
        (tl = [Operation.mk OpDATA 0 (rem.drop (c.bs * (rem.length / c.bs)))] ∨
         tl = [Operation.mk OpDATA 0 [], Operation.mk OpDATA 0 (rem.drop (c.bs * (rem.length / c.bs)))]))) := by
  intro n
  induction n with
  | zero =>
    intro rem B p pv ap b0 b1 b2 bi f hn hsig hB hp hf
    have hrem : rem = [] := List.length_eq_zero.mp (by omega)
    subst hrem
    obtain ⟨f', rfl⟩ : ∃ f', f = f' + 1 := ⟨f - 1, by omega⟩
    refine ⟨[], [], ?_, by simp, by simp, Or.inl ⟨by simp, rfl⟩⟩
    rw [deltaLoop_succ_halt c f' _ rfl (scA c B p pv ap b0 b1 b2 bi hbs hB)]
    simp
  | succ n ih =>
    intro rem B p pv ap b0 b1 b2 bi f hn hsig hB hp hf
    obtain ⟨f', rfl⟩ : ∃ f', f = f' + 1 := ⟨f - 1, by omega⟩
    rcases Nat.lt_or_ge rem.length (c.bs) with hlt | hge
    · -- short tail (or empty)
      rcases Nat.eq_zero_or_pos rem.length with hz | hpos
      · have hrem : rem = [] := List.length_eq_zero.mp hz
        subst hrem
        refine ⟨[], [], ?_, by simp, by simp, Or.inl ⟨by simp, rfl⟩⟩
        rw [deltaLoop_succ_halt c f' _ rfl (scA c B p pv ap b0 b1 b2 bi hbs hB)]
        simp
      · obtain ⟨st', hbody, hlr⟩ := scB c B p pv ap b0 b1 b2 bi rem hbs hB hp hpos hlt
        rw [deltaLoop_succ_cont c f' _ rfl hbody, deltaLoop_lastRun c f' st' hlr,
            List.append_nil]
        have hdiv : rem.length / c.bs = 0 := Nat.div_eq_of_lt hlt
        have hmod : rem.length % c.bs ≠ 0 := by
          rw [Nat.mod_eq_of_lt hlt]
          omega
        refine ⟨[], (if B.length < p + c.bs then [Operation.mk OpDATA 0 []] else []) ++
            [Operation.mk OpDATA 0 rem], by simp, by simp, by simp [hdiv], Or.inr ⟨hmod, ?_⟩⟩
        rw [hdiv]
        simp only [Nat.mul_zero, List.drop_zero]
        by_cases hw : B.length < p + c.bs
        · rw [if_pos hw]
          exact Or.inr rfl
        · rw [if_neg hw]
          exact Or.inl rfl
    · -- full block: match
      have hmem := hsig 0 (by simpa using hge)
      simp only [Nat.mul_zero, List.drop_zero] at hmem
      have hbody := scC c B p pv ap b0 b1 b2 bi rem
        (if B.length < p + c.bs then 0 else p) (if B.length < p + c.bs then p else pv)
        hbs hB hp hge hmem (hne _) rfl rfl
      set p' := if B.length < p + c.bs then 0 else p with hpdef
      have hple : p' + c.bs ≤ B.length := by
        rw [hpdef]
        split <;> omega
      have htklen : (rem.take c.bs).length = c.bs := by
        rw [List.length_take]
        exact Nat.min_eq_left hge
      have hBlen : (writeRange B p' (rem.take c.bs)).length = B.length :=
        writeRange_length _ _ _ (by omega)
      have hsig' : ∀ k, c.bs * k + c.bs ≤ (rem.drop c.bs).length →
          ∃ e ∈ c.sig, e.strongHash = c.h (((rem.drop c.bs).drop (c.bs * k)).take c.bs) ∧
            e.weakHash = (βhash (((rem.drop c.bs).drop (c.bs * k)).take c.bs)).1 := by
        intro k hk
        have hdd : (rem.drop c.bs).drop (c.bs * k) = rem.drop (c.bs * (k + 1)) := by
          rw [List.drop_drop]
          congr 1
          ring
        rw [hdd]
        refine hsig (k + 1) ?_
        rw [List.length_drop] at hk
        have hh : c.bs * (k + 1) = c.bs * k + c.bs := by ring
        omega
      obtain ⟨bl, tl, hrun, hblk, hlen2, htl⟩ := ih (rem.drop c.bs)
        (writeRange B p' (rem.take c.bs)) (p' + c.bs)
        (if B.length < p + c.bs then p else pv) ap
        (βhash (rem.take c.bs)).1 (βhash (rem.take c.bs)).2.1 (βhash (rem.take c.bs)).2.2
        (findUniqueHash (hashLookup c.sig (βhash (rem.take c.bs)).1) (c.h (rem.take c.bs))).1
        f' (by rw [List.length_drop]; omega) hsig' (by rw [hBlen, hB])
        (by rw [hBlen]; omega) (by rw [List.length_drop]; omega)
      refine ⟨Operation.mk OpBLOCK
        (findUniqueHash (hashLookup c.sig (βhash (rem.take c.bs)).1) (c.h (rem.take c.bs))).1 []
          :: bl, tl, ?_, ?_, ?_, ?_⟩
      · rw [deltaLoop_succ_cont c f' _ rfl hbody, hrun]
        simp
      · intro op hop
        rcases List.mem_cons.mp hop with h | h
        · rw [h]
        · exact hblk op h
      · rw [List.length_cons, hlen2, List.length_drop]
        rw [Nat.div_eq_sub_div hbs hge]
      · have hmodeq : rem.length % c.bs = (rem.drop c.bs).length % c.bs := by
          rw [List.length_drop, Nat.mod_eq_sub_mod hge]
        have hdropeq : rem.drop (c.bs * (rem.length / c.bs)) =
            (rem.drop c.bs).drop (c.bs * ((rem.drop c.bs).length / c.bs)) := by
          rw [List.drop_drop, List.length_drop]
          congr 1
          rw [Nat.div_eq_sub_div hbs hge]
          ring
        rw [hmodeq, hdropeq]
        exact htl
end Rsync

namespace Rsync

/-- **C2** (amended).  Self-copy: for a non-empty basis, positive block
size and max-data-op, and a strong hasher with non-empty digests,
`CreateDelta (basis, CreateSignature basis)` emits one BLOCK operation per
full block — `⌊|basis|/bs⌋` of them — and, exactly when `bs ∤ |basis|`,
a final DATA operation carrying the short tail (possibly preceded by one
empty DATA from a buffer wrap at end of stream).  Only when the block
size divides `|basis|` is the delta BLOCK-only, and the BLOCK count is
then `|basis|/bs = ⌈|basis|/bs⌉`. -/
theorem C2_self_copy_structure (h : Hasher) (bs mdo : Nat) (basis : List Nat)
    (hbs : 0 < bs) (hmdo : 0 < mdo) (hb : basis ≠ []) (hne : ∀ v, h v ≠ []) :
    ∃ bl tl, deltaRun h bs mdo (createSignature h bs basis) basis = bl ++ tl ∧
      (∀ op ∈ bl, op.typ = OpBLOCK) ∧ bl.length = basis.length / bs ∧
      ((basis.length % bs = 0 ∧ tl = []) ∨
       (basis.length % bs ≠ 0 ∧
        (tl = [Operation.mk OpDATA 0 (basis.drop (bs * (basis.length / bs)))] ∨
         tl = [Operation.mk OpDATA 0 [],
               Operation.mk OpDATA 0 (basis.drop (bs * (basis.length / bs)))]))) := by
  have hrun := sc_run ⟨bs, mdo, h, createSignature h bs basis⟩ hbs hmdo hne
    basis.length basis (List.replicate (bs * 3 + mdo) 0) 0 0 0 0 0 0 0
    (deltaFuel bs mdo basis) (le_refl _)
    (fun k hk => by
      have hk' : bs * k + bs ≤ basis.length := hk
      refine ⟨⟨k, h ((basis.drop (bs * k)).take bs),
        (βhash ((basis.drop (bs * k)).take bs)).1⟩,
        createSignature_mem h bs hbs basis k (by omega), rfl, rfl⟩)
    (by simp) (by simp)
    (by
      unfold deltaFuel
      have h1 : 1 ≤ bs * 3 + mdo + 2 := by omega
      calc basis.length + 2 = (basis.length + 2) * 1 := by ring
        _ ≤ (basis.length + 2) * (bs * 3 + mdo + 2) := by
            exact Nat.mul_le_mul_left _ h1
    )
  exact hrun

/-- Witness for `C2_self_copy_structure` at `basis = "AAAABBBB"`,
`bs = 4`, `mdo = 8`. -/
theorem C2_self_copy_structure_witness :
    (0 : Nat) < 4 ∧ (0 : Nat) < 8 ∧ ([65, 65, 65, 65, 66, 66, 66, 66] : List Nat) ≠ [] ∧
    (∃ bl tl,
      deltaRun hId 4 8 (createSignature hId 4 [65, 65, 65, 65, 66, 66, 66, 66])
          [65, 65, 65, 65, 66, 66, 66, 66] = bl ++ tl ∧
      (∀ op ∈ bl, op.typ = OpBLOCK) ∧
      bl.length = ([65, 65, 65, 65, 66, 66, 66, 66] : List Nat).length / 4 ∧
      ((([65, 65, 65, 65, 66, 66, 66, 66] : List Nat).length % 4 = 0 ∧ tl = []) ∨
       (([65, 65, 65, 65, 66, 66, 66, 66] : List Nat).length % 4 ≠ 0 ∧
        (tl = [Operation.mk OpDATA 0 (([65, 65, 65, 65, 66, 66, 66, 66] : List Nat).drop
            (4 * (([65, 65, 65, 65, 66, 66, 66, 66] : List Nat).length / 4)))] ∨
         tl = [Operation.mk OpDATA 0 [],
               Operation.mk OpDATA 0 (([65, 65, 65, 65, 66, 66, 66, 66] : List Nat).drop
            (4 * (([65, 65, 65, 65, 66, 66, 66, 66] : List Nat).length / 4)))])))) :=
  ⟨by decide, by decide, by decide,
   C2_self_copy_structure hId 4 8 [65, 65, 65, 65, 66, 66, 66, 66]
     (by decide) (by decide) (by decide) (fun v => by simp [hId])⟩

end Rsync

namespace Rsync

theorem deltaEmit_ops (c : DCtx) (st : DState) (found : Bool) :
    ∀ op ∈ (deltaEmit c st found).1, op.typ = OpBLOCK →
      found = true ∧ op.blockIndex = st.blockIndex := by
  intro op hop htyp
  unfold deltaEmit at hop
  split at hop
  · -- flush fired
    rename_i hcond
    cases hsl : goSlice st.buffer st.dataTail st.dataHead with
    | none =>
      rw [hsl] at hop
      simp at hop
    | some bytes =>
      rw [hsl] at hop
      dsimp only at hop
      cases hf : found with
      | true =>
        rw [hf] at hop
        simp only [if_true] at hop
        rcases List.mem_append.mp hop with h | h
        · rcases List.mem_singleton.mp (by simpa using h) with rfl
          · simp [OpBLOCK, OpDATA] at htyp
        · rcases List.mem_singleton.mp h with rfl
          exact ⟨rfl, rfl⟩
      | false =>
        rw [hf] at hop
        simp only [Bool.false_eq_true, if_false] at hop
        split at hop
        · rcases List.mem_singleton.mp hop with rfl
          simp [OpBLOCK, OpDATA] at htyp
        · rcases List.mem_singleton.mp hop with rfl
          simp [OpBLOCK, OpDATA] at htyp
  · -- no flush
    cases hf : found with
    | true =>
      rw [hf] at hop
      simp only [if_true] at hop
      rcases List.mem_append.mp hop with h | h
      · simp at h
      · rcases List.mem_singleton.mp h with rfl
        exact ⟨rfl, rfl⟩
    | false =>
      rw [hf] at hop
      simp only [Bool.false_eq_true, if_false] at hop
      split at hop
      · simp at hop
      · simp at hop

theorem deltaProbe_ops (c : DCtx) (st : DState) :
    ∀ op ∈ (deltaProbe c st).1, op.typ = OpBLOCK →
      ∃ key w, findUniqueHash (hashLookup c.sig key) (c.h w) = (op.blockIndex, true) := by
  intro op hop htyp
  unfold deltaProbe at hop
  split at hop
  · cases hsl : goSlice st.buffer st.sumTail st.sumHead with
    | none =>
      rw [hsl] at hop
      simp at hop
    | some w =>
      rw [hsl] at hop
      dsimp only at hop
      have he := deltaEmit_ops c _ _ op hop htyp
      refine ⟨st.bWeak, w, ?_⟩
      rw [he.2]
      dsimp only
      have hp : (findUniqueHash (hashLookup c.sig st.bWeak) (c.h w)).2 = true := he.1
      exact Prod.ext rfl hp
  · have he := deltaEmit_ops c _ _ op hop htyp
    exact absurd he.1 (by simp)

theorem deltaHash_ops (c : DCtx) (st : DState) :
    ∀ op ∈ (deltaHash c st).1, op.typ = OpBLOCK →
      ∃ key w, findUniqueHash (hashLookup c.sig key) (c.h w) = (op.blockIndex, true) := by
  intro op hop htyp
  unfold deltaHash at hop
  dsimp only at hop
  split at hop
  · cases hsl : goSlice _ _ _ with
    | none => rw [hsl] at hop; simp at hop
    | some w =>
      rw [hsl] at hop
      exact deltaProbe_ops c _ op hop htyp
  · cases hsl : (if _ = 0 then none else goIdx _ _) with
    | none => rw [hsl] at hop; simp at hop
    | some a =>
      rw [hsl] at hop
      exact deltaProbe_ops c _ op hop htyp

theorem deltaRest_ops (c : DCtx) (st : DState) :
    ∀ op ∈ (deltaRest c st).1, op.typ = OpBLOCK →
      ∃ key w, findUniqueHash (hashLookup c.sig key) (c.h w) = (op.blockIndex, true) := by
  intro op hop htyp
  unfold deltaRest at hop
  split at hop
  · cases hsl : goSlice st.buffer st.dataTail st.prevValidTo with
    | none => rw [hsl] at hop; simp at hop
    | some bytes =>
      rw [hsl] at hop
      dsimp only at hop
      rcases List.mem_cons.mp hop with h | h
      · rw [h] at htyp
        simp [OpBLOCK, OpDATA] at htyp
      · exact deltaHash_ops c _ op h htyp
  · exact deltaHash_ops c _ op hop htyp

theorem deltaRead_ops (c : DCtx) (st : DState) :
    ∀ op ∈ (deltaRead c st).1, op.typ = OpBLOCK →
      ∃ key w, findUniqueHash (hashLookup c.sig key) (c.h w) = (op.blockIndex, true) := by
  intro op hop htyp
  unfold deltaRead at hop
  dsimp only at hop
  split at hop
  · split at hop
    · simp at hop
    · split at hop
      · exact deltaRest_ops c _ op hop htyp
      · exact deltaRest_ops c _ op hop htyp
  · simp at hop

theorem deltaBody_ops (c : DCtx) (st : DState) :
    ∀ op ∈ (deltaBody c st).1, op.typ = OpBLOCK →
      ∃ key w, findUniqueHash (hashLookup c.sig key) (c.h w) = (op.blockIndex, true) := by
  intro op hop htyp
  unfold deltaBody at hop
  split at hop
  · split at hop
    · exact deltaRead_ops c _ op hop htyp
    · exact deltaRead_ops c _ op hop htyp
  · exact deltaRest_ops c _ op hop htyp

theorem deltaLoop_ops (c : DCtx) :
    ∀ (f : Nat) (st : DState), ∀ op ∈ deltaLoop c f st, op.typ = OpBLOCK →
      ∃ key w, findUniqueHash (hashLookup c.sig key) (c.h w) = (op.blockIndex, true) := by
  intro f
  induction f with
  | zero => intro st op hop; simp [deltaLoop] at hop
  | succ f ih =>
    intro st op hop htyp
    simp only [deltaLoop] at hop
    split at hop
    · simp at hop
    · cases hb : deltaBody c st with
      | mk ems step =>
        rw [hb] at hop
        cases step with
        | cont st' =>
          dsimp only at hop
          rcases List.mem_append.mp hop with h | h
          · exact deltaBody_ops c st op (by rw [hb]; exact h) htyp
          · exact ih st' op h htyp
        | halt =>
          dsimp only at hop
          exact deltaBody_ops c st op (by rw [hb]; exact hop) htyp
        | crash =>
          dsimp only at hop
          exact deltaBody_ops c st op (by rw [hb]; exact hop) htyp

end Rsync

namespace Rsync

theorem findUniqueHashLoop_first (hv : List Nat) :
    ∀ (hh : List BlockHash) (i : Nat), findUniqueHashLoop hh hv = (i, true) →
    ∃ l1 e l2, hh = l1 ++ e :: l2 ∧ e.strongHash = hv ∧ e.index = i ∧
      ∀ e' ∈ l1, e'.strongHash ≠ hv := by
  intro hh
  induction hh with
  | nil => intro i hfind; simp [findUniqueHashLoop] at hfind
  | cons b rest ih =>
    intro i hfind
    unfold findUniqueHashLoop at hfind
    by_cases hb : b.strongHash = hv
    · rw [if_pos hb] at hfind
      refine ⟨[], b, rest, by simp, hb, ?_, by simp⟩
      simpa using congrArg Prod.fst hfind
    · rw [if_neg hb] at hfind
      obtain ⟨l1, e, l2, hsplit, hs, hi, hmiss⟩ := ih i hfind
      refine ⟨b :: l1, e, l2, by rw [hsplit]; rfl, hs, hi, ?_⟩
      intro e' he'
      rcases List.mem_cons.mp he' with h | h
      · rw [h]; exact hb
      · exact hmiss e' h

theorem findUniqueHash_first (hh : List BlockHash) (hv : List Nat) (i : Nat)
    (hfind : findUniqueHash hh hv = (i, true)) :
    hv ≠ [] ∧ ∃ l1 e l2, hh = l1 ++ e :: l2 ∧ e.strongHash = hv ∧ e.index = i ∧
      ∀ e' ∈ l1, e'.strongHash ≠ hv := by
  unfold findUniqueHash at hfind
  by_cases hz : hv.length = 0
  · rw [if_pos hz] at hfind
    simp at hfind
  · rw [if_neg hz] at hfind
    exact ⟨by intro hc; rw [hc] at hz; simp at hz, findUniqueHashLoop_first hv hh i hfind⟩

/-- **C5**.  Every `BLOCK(i)` emitted by `CreateDelta` is confirmed by the
strong hash: there is a window `w` and a signature entry with index `i`
whose strong hash equals the (non-empty) strong hash of `w` — a weak-hash
hit alone never yields a BLOCK op.  Moreover, among the entries that share
that entry's weak hash and the window's strong hash, the emitted entry is
the first in signature order, hence (for strictly increasing indices, as
`CreateSignature` produces) the lowest index. -/
theorem C5_strong_hash_confirmation (h : Hasher) (bs mdo : Nat) (sig : List BlockHash)
    (src : List Nat) (hsorted : sig.Pairwise (fun a b => a.index < b.index)) :
    ∀ op ∈ deltaRun h bs mdo sig src, op.typ = OpBLOCK →
    ∃ w e, e ∈ sig ∧ e.index = op.blockIndex ∧ e.strongHash = h w ∧ h w ≠ [] ∧
      (∀ e' ∈ sig, e'.weakHash = e.weakHash → e'.strongHash = h w →
        e.index ≤ e'.index) := by
  intro op hop htyp
  obtain ⟨key, w, hfind0⟩ :=
    deltaLoop_ops ⟨bs, mdo, h, sig⟩ (deltaFuel bs mdo src) (deltaInit bs mdo src) op hop htyp
  have hfind : findUniqueHash (hashLookup sig key) (h w) = (op.blockIndex, true) := hfind0
  obtain ⟨hne, l1, e, l2, hsplit, hs, hi, hmiss⟩ := findUniqueHash_first _ _ _ hfind
  have hbp : (hashLookup sig key).Pairwise (fun a b => a.index < b.index) :=
    hsorted.filter _
  have hmem : e ∈ hashLookup sig key := by
    rw [hsplit]
    exact List.mem_append_right _ (List.mem_cons_self _ _)
  have hesig : e ∈ sig ∧ e.weakHash = key := by
    have hx := List.mem_filter.mp hmem
    exact ⟨hx.1, by simpa using hx.2⟩
  refine ⟨w, e, hesig.1, hi, hs, hne, ?_⟩
  intro e' he' hw' hs'
  have he'bucket : e' ∈ hashLookup sig key := by
    unfold hashLookup
    rw [List.mem_filter]
    exact ⟨he', by simp [hw', hesig.2]⟩
  rw [hsplit] at he'bucket hbp
  rcases List.mem_append.mp he'bucket with hin | hin
  · exact absurd hs' (hmiss e' hin)
  · rcases List.mem_cons.mp hin with hin | hin
    · rw [hin]
    · have := (List.pairwise_append.mp hbp).2.1
      exact le_of_lt ((List.pairwise_cons.mp this).1 e' hin)

/-- Witness for `C5_strong_hash_confirmation`: basis `[7,7]` with
`block_size = 1` yields two signature entries with identical weak and
strong hashes; the self-copy delta emits `BLOCK(0)` twice — the lowest
index — and the theorem applies to the first of them. -/
theorem C5_strong_hash_confirmation_witness :
    (createSignature hId 1 [7, 7]).Pairwise (fun a b => a.index < b.index) ∧
    Operation.mk OpBLOCK 0 [] ∈ deltaRun hId 1 1 (createSignature hId 1 [7, 7]) [7, 7] ∧
    (Operation.mk OpBLOCK 0 []).typ = OpBLOCK ∧
    (∃ w e, e ∈ createSignature hId 1 [7, 7] ∧
      e.index = (Operation.mk OpBLOCK 0 []).blockIndex ∧ e.strongHash = hId w ∧ hId w ≠ [] ∧
      (∀ e' ∈ createSignature hId 1 [7, 7], e'.weakHash = e.weakHash →
        e'.strongHash = hId w → e.index ≤ e'.index)) :=
  ⟨by decide, by decide, by decide,
   C5_strong_hash_confirmation hId 1 1 (createSignature hId 1 [7, 7]) [7, 7]
     (by decide) (Operation.mk OpBLOCK 0 []) (by decide) (by decide)⟩

end Rsync

namespace Rsync

theorem goSlice_length_le {l : List Nat} {i j : Nat} {bytes : List Nat}
    (h : goSlice l i j = some bytes) : bytes.length ≤ l.length := by
  unfold goSlice at h
  split at h
  · cases h
    simp only [List.length_take, List.length_drop]
    omega
  · cases h

theorem deltaEmit_data_le (c : DCtx) (st : DState) (found : Bool) :
    ∀ op ∈ (deltaEmit c st found).1, op.typ = OpDATA →
      op.data.length ≤ st.buffer.length := by
  intro op hop htyp
  unfold deltaEmit at hop
  split at hop
  · cases hsl : goSlice st.buffer st.dataTail st.dataHead with
    | none =>
      rw [hsl] at hop
      simp at hop
    | some bytes =>
      rw [hsl] at hop
      dsimp only at hop
      have hble := goSlice_length_le hsl
      cases hf : found with
      | true =>
        rw [hf] at hop
        simp only [if_true] at hop
        rcases List.mem_append.mp hop with h | h
        · rcases List.mem_singleton.mp (by simpa using h) with rfl
          exact hble
        · rcases List.mem_singleton.mp h with rfl
          simp [OpBLOCK, OpDATA] at htyp
      | false =>
        rw [hf] at hop
        simp only [Bool.false_eq_true, if_false] at hop
        split at hop
        · rcases List.mem_singleton.mp hop with rfl
          exact hble
        · rcases List.mem_singleton.mp hop with rfl
          exact hble
  · cases hf : found with
    | true =>
      rw [hf] at hop
      simp only [if_true] at hop
      rcases List.mem_append.mp hop with h | h
      · simp at h
      · rcases List.mem_singleton.mp h with rfl
        simp [OpBLOCK, OpDATA] at htyp
    | false =>
      rw [hf] at hop
      simp only [Bool.false_eq_true, if_false] at hop
      split at hop
      · simp at hop
      · simp at hop

theorem deltaEmit_buflen (c : DCtx) (st : DState) (found : Bool) (st' : DState)
    (h : (deltaEmit c st found).2 = DStep.cont st') :
    st'.buffer = st.buffer := by
  unfold deltaEmit at h
  split at h
  · cases hsl : goSlice st.buffer st.dataTail st.dataHead with
    | none =>
      rw [hsl] at h
      simp at h
    | some bytes =>
      rw [hsl] at h
      dsimp only at h
      cases hf : found with
      | true =>
        rw [hf] at h
        simp only [if_true] at h
        cases h
        rfl
      | false =>
        rw [hf] at h
        simp only [Bool.false_eq_true, if_false] at h
        split at h
        · simp at h
        · cases h
          rfl
  · cases hf : found with
    | true =>
      rw [hf] at h
      simp only [if_true] at h
      cases h
      rfl
    | false =>
      rw [hf] at h
      simp only [Bool.false_eq_true, if_false] at h
      split at h
      · simp at h
      · cases h
        rfl

theorem deltaProbe_data_le (c : DCtx) (st : DState) :
    ∀ op ∈ (deltaProbe c st).1, op.typ = OpDATA →
      op.data.length ≤ st.buffer.length := by
  intro op hop htyp
  unfold deltaProbe at hop
  split at hop
  · cases hsl : goSlice st.buffer st.sumTail st.sumHead with
    | none => rw [hsl] at hop; simp at hop
    | some w =>
      rw [hsl] at hop
      dsimp only at hop
      have he := deltaEmit_data_le c _ _ op hop htyp
      exact he
  · have he := deltaEmit_data_le c _ _ op hop htyp
    exact he

theorem deltaProbe_buflen (c : DCtx) (st : DState) (st' : DState)
    (h : (deltaProbe c st).2 = DStep.cont st') :
    st'.buffer = st.buffer := by
  unfold deltaProbe at h
  split at h
  · cases hsl : goSlice st.buffer st.sumTail st.sumHead with
    | none => rw [hsl] at h; simp at h
    | some w =>
      rw [hsl] at h
      dsimp only at h
      have he := deltaEmit_buflen c _ _ st' h
      exact he
  · have he := deltaEmit_buflen c _ _ st' h
    exact he

theorem deltaHash_data_le (c : DCtx) (st : DState) :
    ∀ op ∈ (deltaHash c st).1, op.typ = OpDATA →
      op.data.length ≤ st.buffer.length := by
  intro op hop htyp
  unfold deltaHash at hop
  dsimp only at hop
  split at hop
  · cases hsl : goSlice _ _ _ with
    | none => rw [hsl] at hop; simp at hop
    | some w =>
      rw [hsl] at hop
      have he := deltaProbe_data_le c _ op hop htyp
      exact he
  · cases hsl : (if _ = 0 then none else goIdx _ _) with
    | none => rw [hsl] at hop; simp at hop
    | some a =>
      rw [hsl] at hop
      have he := deltaProbe_data_le c _ op hop htyp
      exact he

theorem deltaHash_buflen (c : DCtx) (st : DState) (st' : DState)
    (h : (deltaHash c st).2 = DStep.cont st') :
    st'.buffer = st.buffer := by
  unfold deltaHash at h
  dsimp only at h
  split at h
  · cases hsl : goSlice _ _ _ with
    | none => rw [hsl] at h; simp at h
    | some w =>
      rw [hsl] at h
      have he := deltaProbe_buflen c _ st' h
      exact he
  · cases hsl : (if _ = 0 then none else goIdx _ _) with
    | none => rw [hsl] at h; simp at h
    | some a =>
      rw [hsl] at h
      have he := deltaProbe_buflen c _ st' h
      exact he

theorem deltaRest_data_le (c : DCtx) (st : DState) :
    ∀ op ∈ (deltaRest c st).1, op.typ = OpDATA →
      op.data.length ≤ st.buffer.length := by
  intro op hop htyp
  unfold deltaRest at hop
  split at hop
  · cases hsl : goSlice st.buffer st.dataTail st.prevValidTo with
    | none => rw [hsl] at hop; simp at hop
    | some bytes =>
      rw [hsl] at hop
      dsimp only at hop
      rcases List.mem_cons.mp hop with h | h
      · rw [h]
        exact goSlice_length_le hsl
      · have he := deltaHash_data_le c _ op h htyp
        exact he
  · have he := deltaHash_data_le c _ op hop htyp
    exact he

theorem deltaRest_buflen (c : DCtx) (st : DState) (st' : DState)
    (h : (deltaRest c st).2 = DStep.cont st') :
    st'.buffer = st.buffer := by
  unfold deltaRest at h
  split at h
  · cases hsl : goSlice st.buffer st.dataTail st.prevValidTo with
    | none => rw [hsl] at h; simp at h
    | some bytes =>
      rw [hsl] at h
      dsimp only at h
      have he := deltaHash_buflen c _ st' h
      exact he
  · have he := deltaHash_buflen c _ st' h
    exact he

theorem deltaRead_data_le (c : DCtx) (st : DState) :
    ∀ op ∈ (deltaRead c st).1, op.typ = OpDATA →
      op.data.length ≤ st.buffer.length := by
  intro op hop htyp
  unfold deltaRead at hop
  dsimp only at hop
  split at hop
  · rename_i hguard
    have hwl : (writeRange st.buffer st.validTo
        (st.src.take (min c.bs st.src.length))).length = st.buffer.length := by
      apply writeRange_length
      simp only [List.length_take]
      omega
    split at hop
    · simp at hop
    · split at hop
      · have he := deltaRest_data_le c _ op hop htyp
        dsimp only at he
        rwa [hwl] at he
      · have he := deltaRest_data_le c _ op hop htyp
        dsimp only at he
        rwa [hwl] at he
  · simp at hop

theorem deltaRead_buflen (c : DCtx) (st : DState) (st' : DState)
    (h : (deltaRead c st).2 = DStep.cont st') :
    st'.buffer.length = st.buffer.length := by
  unfold deltaRead at h
  dsimp only at h
  split at h
  · rename_i hguard
    have hwl : (writeRange st.buffer st.validTo
        (st.src.take (min c.bs st.src.length))).length = st.buffer.length := by
      apply writeRange_length
      simp only [List.length_take]
      omega
    split at h
    · simp at h
    · split at h
      · have he := deltaRest_buflen c _ st' h
        rw [congrArg List.length he]
        exact hwl
      · have he := deltaRest_buflen c _ st' h
        rw [congrArg List.length he]
        exact hwl
  · simp at h

theorem deltaBody_data_le (c : DCtx) (st : DState) :
    ∀ op ∈ (deltaBody c st).1, op.typ = OpDATA →
      op.data.length ≤ st.buffer.length := by
  intro op hop htyp
  unfold deltaBody at hop
  split at hop
  · split at hop
    · have he := deltaRead_data_le c _ op hop htyp
      exact he
    · exact deltaRead_data_le c st op hop htyp
  · exact deltaRest_data_le c st op hop htyp

theorem deltaBody_buflen (c : DCtx) (st : DState) (st' : DState)
    (h : (deltaBody c st).2 = DStep.cont st') :
    st'.buffer.length = st.buffer.length := by
  unfold deltaBody at h
  split at h
  · split at h
    · have he := deltaRead_buflen c _ st' h
      exact he
    · exact deltaRead_buflen c st st' h
  · rw [congrArg List.length (deltaRest_buflen c st st' h)]

theorem deltaLoop_data_le (c : DCtx) :
    ∀ (f : Nat) (st : DState) (L : Nat), st.buffer.length = L →
      ∀ op ∈ deltaLoop c f st, op.typ = OpDATA → op.data.length ≤ L := by
  intro f
  induction f with
  | zero => intro st L hL op hop; simp [deltaLoop] at hop
  | succ f ih =>
    intro st L hL op hop htyp
    simp only [deltaLoop] at hop
    split at hop
    · simp at hop
    · cases hb : deltaBody c st with
      | mk ems step =>
        rw [hb] at hop
        cases step with
        | cont st' =>
          dsimp only at hop
          rcases List.mem_append.mp hop with hin | hin
          · have := deltaBody_data_le c st op (by rw [hb]; exact hin) htyp
            omega
          · refine ih st' L ?_ op hin htyp
            rw [deltaBody_buflen c st st' (by rw [hb]), hL]
        | halt =>
          dsimp only at hop
          have := deltaBody_data_le c st op (by rw [hb]; exact hop) htyp
          omega
        | crash =>
          dsimp only at hop
          have := deltaBody_data_le c st op (by rw [hb]; exact hop) htyp
          omega

/-- **C3** (amended bound).  Every `DATA` operation emitted by
`CreateDelta` — the pending-run flush, the wrapped-data flush, and the
end-of-stream flush alike — carries a sub-slice of the scanner's internal
buffer, so its payload length is at most the buffer capacity
`max_data_op + 3·block_size`.  The spec's bound of `max_data_op` alone is
violated (see the counterexample). -/
theorem C3_data_payload_bounded (h : Hasher) (bs mdo : Nat) (sig : List BlockHash)
    (src : List Nat) :
    ∀ op ∈ deltaRun h bs mdo sig src, op.typ = OpDATA →
      op.data.length ≤ mdo + 3 * bs := by
  intro op hop htyp
  have := deltaLoop_data_le ⟨bs, mdo, h, sig⟩ (deltaFuel bs mdo src)
    (deltaInit bs mdo src) (bs * 3 + mdo) (by simp [deltaInit]) op hop htyp
  omega

theorem C3_data_payload_bounded_witness :
    ((⟨OpDATA, 0, [65]⟩ : Operation) ∈ deltaRun hId 1 1 [] [65, 66] ∧
      (⟨OpDATA, 0, [65]⟩ : Operation).typ = OpDATA) ∧
    (⟨OpDATA, 0, [65]⟩ : Operation).data.length ≤ 1 + 3 * 1 :=
  ⟨⟨by decide, by decide⟩,
   C3_data_payload_bounded hId 1 1 [] [65, 66] ⟨OpDATA, 0, [65]⟩ (by decide) (by decide)⟩

end Rsync

namespace Rsync

theorem goSlice_ok (l : List Nat) (i j : Nat) (h1 : i ≤ j) (h2 : j ≤ l.length) :
    goSlice l i j = some ((l.drop i).take (j - i)) := by
  unfold goSlice
  rw [if_pos ⟨h1, h2⟩]

theorem seg_writeRange (l xs : List Nat) (tail head : Nat)
    (h1 : tail ≤ head) (h2 : head + xs.length ≤ l.length) :
    ((writeRange l head xs).drop tail).take (head + xs.length - tail) =
      (l.drop tail).take (head - tail) ++ xs := by
  unfold writeRange
  have hlt : (l.take head).length = head := by
    simp only [List.length_take]
    omega
  rw [List.append_assoc, List.drop_append_of_le_length (by omega)]
  have e1 : head + xs.length - tail = ((l.take head).drop tail).length + xs.length := by
    simp only [List.length_drop, hlt]
    omega
  rw [e1, List.take_append, List.take_append_of_le_length (le_refl _), List.take_length,
      List.drop_take]

theorem sbContent_take (b : SBuf) (needed : Nat) (hh : b.head ≤ b.backer.length)
    (hn : b.tail + needed ≤ b.head) :
    (sbContent b).take needed = (b.backer.drop b.tail).take needed := by
  unfold sbContent
  rw [List.take_append_of_le_length
      (by simp only [List.length_take, List.length_drop]; omega),
    List.take_take, Nat.min_eq_left (by omega)]

theorem sbContent_length (b : SBuf) (hh : b.head ≤ b.backer.length) :
    (sbContent b).length = (b.head - b.tail) + b.up.length := by
  unfold sbContent
  simp only [List.length_append, List.length_take, List.length_drop]
  omega

theorem sbFill_spec : ∀ (fuel needed : Nat) (b : SBuf),
    b.tail ≤ b.head → b.head ≤ b.backer.length → b.tail + needed ≤ b.backer.length →
    b.up.length < fuel →
    (sbFill fuel needed b).1.tail = b.tail ∧
    (sbFill fuel needed b).1.backer.length = b.backer.length ∧
    (sbFill fuel needed b).1.tail ≤ (sbFill fuel needed b).1.head ∧
    (sbFill fuel needed b).1.head ≤ (sbFill fuel needed b).1.backer.length ∧
    sbContent (sbFill fuel needed b).1 = sbContent b ∧
    ((sbFill fuel needed b).2 = true →
      (sbFill fuel needed b).1.up = [] ∧
      (sbFill fuel needed b).1.head < (sbFill fuel needed b).1.tail + needed) ∧
    ((sbFill fuel needed b).2 = false → b.tail + needed ≤ (sbFill fuel needed b).1.head) := by
  intro fuel
  induction fuel with
  | zero =>
    intro needed b h1 h2 h3 h4
    exact absurd h4 (by omega)
  | succ fuel ih =>
    intro needed b h1 h2 h3 h4
    by_cases hc : b.tail + needed > b.head
    · by_cases hup : b.up.length = 0
      · have hstep : sbFill (fuel + 1) needed b = ({ b with head := b.head + 0 }, true) := by
          simp only [sbFill, sbRead]
          rw [if_pos hc, if_pos hup]
          rfl
        rw [hstep]
        refine ⟨rfl, rfl, by dsimp only; omega, by dsimp only; omega, ?_, ?_, ?_⟩
        · unfold sbContent
          dsimp only
          rw [Nat.add_zero]
        · intro _
          exact ⟨List.length_eq_zero.mp hup, by dsimp only; omega⟩
        · intro hfa
          exact absurd hfa (by simp)
      · have hn1 : 1 ≤ min (b.backer.length - b.head) b.up.length :=
          le_min (by omega) (by omega)
        have hnle : min (b.backer.length - b.head) b.up.length ≤ b.backer.length - b.head :=
          min_le_left _ _
        have hnup : min (b.backer.length - b.head) b.up.length ≤ b.up.length :=
          min_le_right _ _
        have htk : (b.up.take (min (b.backer.length - b.head) b.up.length)).length =
            min (b.backer.length - b.head) b.up.length := by
          simp only [List.length_take]
          omega
        have hstep : sbFill (fuel + 1) needed b = sbFill fuel needed
            ⟨writeRange b.backer b.head (b.up.take (min (b.backer.length - b.head) b.up.length)),
             b.tail, b.head + min (b.backer.length - b.head) b.up.length,
             b.up.drop (min (b.backer.length - b.head) b.up.length)⟩ := by
          simp only [sbFill, sbRead]
          rw [if_pos hc, if_neg hup]
          rfl
        have hWlen : (writeRange b.backer b.head
            (b.up.take (min (b.backer.length - b.head) b.up.length))).length =
            b.backer.length := by
          apply writeRange_length
          rw [htk]
          omega
        have hcont : sbContent
            (⟨writeRange b.backer b.head (b.up.take (min (b.backer.length - b.head) b.up.length)),
              b.tail, b.head + min (b.backer.length - b.head) b.up.length,
              b.up.drop (min (b.backer.length - b.head) b.up.length)⟩ : SBuf) = sbContent b := by
          unfold sbContent
          dsimp only
          have hseg := seg_writeRange b.backer
            (b.up.take (min (b.backer.length - b.head) b.up.length)) b.tail b.head
            h1 (by rw [htk]; omega)
          rw [htk] at hseg
          rw [hseg, List.append_assoc, List.take_append_drop]
        obtain ⟨i1, i2, i3, i4, i5, i6, i7⟩ := ih needed
          ⟨writeRange b.backer b.head (b.up.take (min (b.backer.length - b.head) b.up.length)),
           b.tail, b.head + min (b.backer.length - b.head) b.up.length,
           b.up.drop (min (b.backer.length - b.head) b.up.length)⟩
          (by dsimp only; omega) (by dsimp only; rw [hWlen]; omega)
          (by dsimp only; rw [hWlen]; omega)
          (by dsimp only; simp only [List.length_drop]; omega)
        rw [hstep]
        refine ⟨by rw [i1], by rw [i2]; exact hWlen, i3, i4, by rw [i5]; exact hcont, i6, ?_⟩
        intro hf
        have hle := i7 hf
        dsimp only at hle
        omega
    · have hstep : sbFill (fuel + 1) needed b = (b, false) := by
        simp only [sbFill]
        rw [if_neg hc]
      rw [hstep]
      exact ⟨rfl, rfl, h1, h2, rfl, fun hfa => absurd hfa (by simp), fun _ => by dsimp only; omega⟩

theorem sbFillSlice (fuel : Nat) (b₁ : SBuf) (needed : Nat)
    (h1 : b₁.tail ≤ b₁.head) (h2 : b₁.head ≤ b₁.backer.length)
    (h3 : b₁.tail + needed ≤ b₁.backer.length) (h4 : b₁.up.length < fuel) :
    goSlice (sbFill fuel needed b₁).1.backer (sbFill fuel needed b₁).1.tail
        (min ((sbFill fuel needed b₁).1.tail + needed) (sbFill fuel needed b₁).1.head) =
      some ((sbContent b₁).take needed) ∧
    ((sbFill fuel needed b₁).2 = true ↔ (sbContent b₁).length < needed) ∧
    sbContent (sbFill fuel needed b₁).1 = sbContent b₁ ∧
    (sbFill fuel needed b₁).1.tail ≤ (sbFill fuel needed b₁).1.head ∧
    (sbFill fuel needed b₁).1.head ≤ (sbFill fuel needed b₁).1.backer.length ∧
    (sbFill fuel needed b₁).1.backer.length = b₁.backer.length ∧
    min needed (sbContent b₁).length ≤
      (sbFill fuel needed b₁).1.head - (sbFill fuel needed b₁).1.tail := by
  obtain ⟨i1, i2, i3, i4, i5, i6, i7⟩ := sbFill_spec fuel needed b₁ h1 h2 h3 h4
  cases hfe : (sbFill fuel needed b₁).2 with
  | false =>
    have hge : b₁.tail + needed ≤ (sbFill fuel needed b₁).1.head := i7 hfe
    have hmin : min ((sbFill fuel needed b₁).1.tail + needed) (sbFill fuel needed b₁).1.head =
        (sbFill fuel needed b₁).1.tail + needed := Nat.min_eq_left (by omega)
    have hsl := goSlice_ok (sbFill fuel needed b₁).1.backer (sbFill fuel needed b₁).1.tail
      ((sbFill fuel needed b₁).1.tail + needed) (by omega) (by omega)
    have htkc := sbContent_take (sbFill fuel needed b₁).1 needed i4 (by omega)
    rw [i5] at htkc
    refine ⟨?_, ?_, i5, i3, i4, i2, by omega⟩
    · rw [hmin, hsl, Nat.add_sub_cancel_left, ← htkc]
    · simp only [Bool.false_eq_true, false_iff, not_lt]
      rw [← i5, sbContent_length _ i4]
      omega
  | true =>
    obtain ⟨hup0, hlt⟩ := i6 hfe
    have hclen : (sbContent b₁).length < needed := by
      rw [← i5, sbContent_length _ i4, hup0]
      simp only [List.length_nil]
      omega
    have hmin : min ((sbFill fuel needed b₁).1.tail + needed) (sbFill fuel needed b₁).1.head =
        (sbFill fuel needed b₁).1.head := Nat.min_eq_right (by omega)
    have hsl := goSlice_ok (sbFill fuel needed b₁).1.backer (sbFill fuel needed b₁).1.tail
      (sbFill fuel needed b₁).1.head i3 i4
    have hcfull : sbContent (sbFill fuel needed b₁).1 =
        ((sbFill fuel needed b₁).1.backer.drop (sbFill fuel needed b₁).1.tail).take
          ((sbFill fuel needed b₁).1.head - (sbFill fuel needed b₁).1.tail) := by
      unfold sbContent
      rw [hup0, List.append_nil]
    have hlenF := sbContent_length (sbFill fuel needed b₁).1 i4
    rw [i5, hup0] at hlenF
    simp only [List.length_nil] at hlenF
    refine ⟨?_, by simp only [eq_self_iff_true, true_iff]; exact hclen, i5, i3, i4, i2,
      by omega⟩
    rw [hmin, hsl, ← hcfull, i5,
      List.take_of_length_le (show (sbContent b₁).length ≤ needed by omega)]

theorem sbNext_some (b : SBuf) (needed : Nat)
    (h1 : b.tail ≤ b.head) (h2 : b.head ≤ b.backer.length)
    (h3 : needed ≤ b.backer.length) :
    ∃ eof b', SBuf.next b needed = some ((sbContent b).take needed, eof, b') ∧
      (eof = true ↔ (sbContent b).length < needed) ∧
      sbContent b' = sbContent b ∧ b'.tail ≤ b'.head ∧ b'.head ≤ b'.backer.length ∧
      b'.backer.length = b.backer.length ∧
      min needed (sbContent b).length ≤ b'.head - b'.tail := by
  unfold SBuf.next
  rw [if_neg (by omega)]
  dsimp only
  by_cases hcomp : b.tail + needed > b.backer.length
  · rw [if_pos hcomp, goSlice_ok b.backer b.tail b.head h1 h2]
    dsimp only
    have hseglen : ((b.backer.drop b.tail).take (b.head - b.tail)).length = b.head - b.tail := by
      simp only [List.length_take, List.length_drop]
      omega
    have hWlen : (writeRange b.backer 0 ((b.backer.drop b.tail).take (b.head - b.tail))).length =
        b.backer.length := by
      apply writeRange_length
      rw [hseglen]
      omega
    have hcont : sbContent
        (⟨writeRange b.backer 0 ((b.backer.drop b.tail).take (b.head - b.tail)), 0,
          ((b.backer.drop b.tail).take (b.head - b.tail)).length, b.up⟩ : SBuf) =
        sbContent b := by
      unfold sbContent
      dsimp only
      simp only [Nat.sub_zero]
      have hseg := seg_writeRange b.backer ((b.backer.drop b.tail).take (b.head - b.tail))
        0 0 (le_refl 0) (by rw [hseglen]; omega)
      simp only [Nat.zero_add, Nat.sub_zero, List.take_zero, List.nil_append] at hseg
      rw [hseg]
    obtain ⟨j1, j2, j3, j4, j5, j6, j7⟩ := sbFillSlice (b.up.length + 1)
      ⟨writeRange b.backer 0 ((b.backer.drop b.tail).take (b.head - b.tail)), 0,
       ((b.backer.drop b.tail).take (b.head - b.tail)).length, b.up⟩ needed
      (by dsimp only; omega)
      (by dsimp only; rw [hWlen, hseglen]; omega)
      (by dsimp only; rw [hWlen]; omega)
      (by dsimp only; omega)
    rw [hcont] at j1 j2 j3 j7
    rw [j1]
    dsimp only
    refine ⟨_, _, rfl, j2, j3, j4, j5, ?_, j7⟩
    rw [j6]
    exact hWlen
  · rw [if_neg hcomp]
    dsimp only
    obtain ⟨j1, j2, j3, j4, j5, j6, j7⟩ := sbFillSlice (b.up.length + 1) b needed h1 h2
      (by omega) (by omega)
    rw [j1]
    dsimp only
    exact ⟨_, _, rfl, j2, j3, j4, j5, j6, j7⟩

theorem sbNext_none_iff (b : SBuf) (needed : Nat)
    (h1 : b.tail ≤ b.head) (h2 : b.head ≤ b.backer.length) :
    (SBuf.next b needed = none ↔ needed > b.backer.length) := by
  constructor
  · intro hnone
    by_contra hgt
    obtain ⟨eof, b', heq, -⟩ := sbNext_some b needed h1 h2 (by omega)
    rw [heq] at hnone
    cases hnone
  · intro hgt
    unfold SBuf.next
    rw [if_pos hgt]

theorem sbUsed_content (b : SBuf) (k : Nat)
    (h2 : b.head ≤ b.backer.length) (hk : b.tail + k ≤ b.head) :
    ∃ b', SBuf.used b k = some b' ∧ sbContent b' = (sbContent b).drop k ∧
      b'.tail ≤ b'.head ∧ b'.head ≤ b'.backer.length ∧
      b'.backer.length = b.backer.length := by
  refine ⟨{ b with tail := b.tail + k }, by unfold SBuf.used; rw [if_neg (by omega)], ?_,
    by dsimp only; omega, by dsimp only; omega, rfl⟩
  unfold sbContent
  dsimp only
  have hlen1 : k ≤ ((b.backer.drop b.tail).take (b.head - b.tail)).length := by
    simp only [List.length_take, List.length_drop]
    omega
  rw [List.drop_append_of_le_length hlen1, List.drop_take, List.drop_drop,
    show b.head - b.tail - k = b.head - (b.tail + k) by omega]

theorem goIdx_append_left (l₁ l₂ : List Nat) (n : Nat) (h : n < l₁.length) :
    goIdx (l₁ ++ l₂) n = goIdx l₁ n := by
  unfold goIdx
  exact List.get?_append h

theorem goIdx_append_right (l₁ l₂ : List Nat) (n : Nat) :
    goIdx (l₁ ++ l₂) (l₁.length + n) = goIdx l₂ n := by
  unfold goIdx
  rw [List.get?_append_right (by omega)]
  congr 1
  omega

theorem goIdx_take (l : List Nat) (m n : Nat) (h : n < m) :
    goIdx (l.take m) n = goIdx l n := by
  unfold goIdx
  exact List.get?_take h

theorem take_append_ge (l₁ l₂ : List Nat) (n : Nat) (h : l₁.length ≤ n) :
    (l₁ ++ l₂).take n = l₁ ++ l₂.take (n - l₁.length) := by
  rw [List.take_append_eq_append_take, List.take_of_length_le h]

/-- **C9**: the sbuffer contract.  For a well-formed buffer state
(`tail ≤ head ≤ capacity`), `Next(n)` panics exactly when `n` exceeds the
backer capacity; otherwise — compacting and reading from the upstream as
needed — it returns the first `min(n, available)` bytes of the buffered
content (`backer[tail:head] ++ upstream`), reports `io.EOF` exactly when
fewer than `n` bytes were available, and preserves the content, the
well-formedness and the capacity.  `Used(k)` panics exactly when
`k > head - tail`, and otherwise advances `tail` by `k`. -/
theorem C9_sbuffer_contract (b : SBuf) (n k : Nat)
    (h1 : b.tail ≤ b.head) (h2 : b.head ≤ b.backer.length) :
    (SBuf.next b n = none ↔ n > b.backer.length) ∧
    (n ≤ b.backer.length → ∃ eof b',
      SBuf.next b n = some ((sbContent b).take n, eof, b') ∧
      (eof = true ↔ (sbContent b).length < n) ∧
      sbContent b' = sbContent b ∧
      b'.tail ≤ b'.head ∧ b'.head ≤ b'.backer.length ∧
      b'.backer.length = b.backer.length) ∧
    (SBuf.used b k = none ↔ b.head - b.tail < k) ∧
    (k ≤ b.head - b.tail → SBuf.used b k = some { b with tail := b.tail + k }) := by
  refine ⟨sbNext_none_iff b n h1 h2, fun h3 => ?_, ?_, ?_⟩
  case _ =>
    obtain ⟨eof, b', he1, he2, he3, he4, he5, he6, -⟩ := sbNext_some b n h1 h2 h3
    exact ⟨eof, b', he1, he2, he3, he4, he5, he6⟩
  · unfold SBuf.used
    by_cases hk : b.tail + k > b.head
    · rw [if_pos hk]
      constructor
      · intro _
        omega
      · intro _
        rfl
    · rw [if_neg hk]
      constructor
      · intro hx
        exact Option.noConfusion hx
      · intro hx
        exact absurd hx (by omega)
  · intro hk
    unfold SBuf.used
    rw [if_neg (by omega)]

theorem C9_sbuffer_contract_witness :
    (SBuf.next ⟨[1, 2, 3, 4], 1, 3, [7, 8]⟩ 3 = none ↔
      3 > (SBuf.mk [1, 2, 3, 4] 1 3 [7, 8]).backer.length) ∧
    (3 ≤ (SBuf.mk [1, 2, 3, 4] 1 3 [7, 8]).backer.length → ∃ eof b',
      SBuf.next ⟨[1, 2, 3, 4], 1, 3, [7, 8]⟩ 3 =
        some ((sbContent ⟨[1, 2, 3, 4], 1, 3, [7, 8]⟩).take 3, eof, b') ∧
      (eof = true ↔ (sbContent ⟨[1, 2, 3, 4], 1, 3, [7, 8]⟩).length < 3) ∧
      sbContent b' = sbContent ⟨[1, 2, 3, 4], 1, 3, [7, 8]⟩ ∧
      b'.tail ≤ b'.head ∧ b'.head ≤ b'.backer.length ∧
      b'.backer.length = (SBuf.mk [1, 2, 3, 4] 1 3 [7, 8]).backer.length) ∧
    (SBuf.used ⟨[1, 2, 3, 4], 1, 3, [7, 8]⟩ 1 = none ↔
      (SBuf.mk [1, 2, 3, 4] 1 3 [7, 8]).head - (SBuf.mk [1, 2, 3, 4] 1 3 [7, 8]).tail < 1) ∧
    (1 ≤ (SBuf.mk [1, 2, 3, 4] 1 3 [7, 8]).head - (SBuf.mk [1, 2, 3, 4] 1 3 [7, 8]).tail →
      SBuf.used ⟨[1, 2, 3, 4], 1, 3, [7, 8]⟩ 1 =
        some { SBuf.mk [1, 2, 3, 4] 1 3 [7, 8] with
                 tail := (SBuf.mk [1, 2, 3, 4] 1 3 [7, 8]).tail + 1 }) :=
  C9_sbuffer_contract ⟨[1, 2, 3, 4], 1, 3, [7, 8]⟩ 3 1 (by decide) (by decide)

end Rsync

namespace Rsync

theorem putUvarint_len_pos (x : Nat) : 1 ≤ (putUvarint x).length := by
  unfold putUvarint
  split
  · simp
  · simp

theorem putUvarint_len_le : ∀ (k x : Nat), 1 ≤ k → x < 128 ^ k → (putUvarint x).length ≤ k := by
  intro k
  induction k with
  | zero => intro x h1 _; omega
  | succ k ih =>
    intro x _ hx
    unfold putUvarint
    split
    · simp
    · rename_i hge
      simp only [List.length_cons]
      have hk1 : 1 ≤ k := by
        by_contra hk0
        have : k = 0 := by omega
        subst this
        simp [pow_succ, pow_zero] at hx
        omega
      have hdiv : x / 128 < 128 ^ k := by
        rw [Nat.div_lt_iff_lt_mul (by omega)]
        calc x < 128 ^ (k + 1) := hx
        _ = 128 ^ k * 128 := by ring
      have := ih (x / 128) hk1 hdiv
      omega

theorem uvarintAux_put : ∀ (y i acc : Nat) (rest : List Nat),
    i ≤ 9 → y * 2 ^ (7 * i) < 2 ^ 64 → acc < 2 ^ (7 * i) →
    uvarintAux (putUvarint y ++ rest) i acc (7 * i) =
      ((acc + y * 2 ^ (7 * i)) % 2 ^ 64, Int.ofNat (i + (putUvarint y).length)) := by
  intro y
  induction y using Nat.strong_induction_on with
  | _ y ih =>
    intro i acc rest hi hy hacc
    by_cases h128 : y < 128
    · have hput : putUvarint y = [y] := by
        unfold putUvarint
        rw [dif_pos h128]
      rw [hput]
      simp only [List.cons_append, List.nil_append]
      unfold uvarintAux
      rw [if_pos h128]
      have hguard : ¬(i > 9 ∨ (i = 9 ∧ y > 1)) := by
        push_neg
        refine ⟨by omega, fun h9 => ?_⟩
        subst h9
        by_contra hy2
        have : 2 * 2 ^ (7 * 9) ≤ y * 2 ^ (7 * 9) :=
          Nat.mul_le_mul_right _ (by omega)
        have : (2 : Nat) ^ 64 ≤ y * 2 ^ (7 * 9) := by
          calc (2 : Nat) ^ 64 = 2 * 2 ^ 63 := by norm_num
          _ = 2 * 2 ^ (7 * 9) := by norm_num
          _ ≤ y * 2 ^ (7 * 9) := this
        omega
      rw [if_neg hguard]
      refine Prod.ext rfl ?_
      simp only [List.length_cons, List.length_nil, Nat.zero_add, Int.ofNat_eq_natCast]
      omega
    · have hput : putUvarint y = (y % 128 + 128) :: putUvarint (y / 128) := by
        conv_lhs => rw [putUvarint]
        rw [dif_neg h128]
      have hstep : y % 128 * 2 ^ (7 * i) + y / 128 * 2 ^ (7 * (i + 1)) = y * 2 ^ (7 * i) := by
        have : 2 ^ (7 * (i + 1)) = 2 ^ (7 * i) * 128 := by
          rw [show 7 * (i + 1) = 7 * i + 7 by ring, pow_add]
          norm_num
        rw [this]
        have hym : y % 128 + 128 * (y / 128) = y := Nat.mod_add_div y 128
        nlinarith [Nat.mod_add_div y 128]
      have hi8 : i ≤ 8 := by
        by_contra hi9
        have h9 : i = 9 := by omega
        subst h9
        have : 128 * 2 ^ (7 * 9) ≤ y * 2 ^ (7 * 9) :=
          Nat.mul_le_mul_right _ (by omega)
        have : (2 : Nat) ^ 64 ≤ y * 2 ^ (7 * 9) := by
          calc (2 : Nat) ^ 64 ≤ 128 * 2 ^ (7 * 9) := by norm_num
          _ ≤ y * 2 ^ (7 * 9) := this
        omega
      have hacc' : acc + y % 128 * 2 ^ (7 * i) < 2 ^ (7 * (i + 1)) := by
        have h1 : y % 128 ≤ 127 := by omega
        have : acc + y % 128 * 2 ^ (7 * i) < 2 ^ (7 * i) + 127 * 2 ^ (7 * i) :=
          Nat.add_lt_add_of_lt_of_le hacc (Nat.mul_le_mul_right _ h1)
        calc acc + y % 128 * 2 ^ (7 * i) < 128 * 2 ^ (7 * i) := by omega
        _ = 2 ^ (7 * (i + 1)) := by
          rw [show 7 * (i + 1) = 7 + 7 * i by ring, pow_add]
          norm_num
      have hacc64 : acc + y % 128 * 2 ^ (7 * i) < 2 ^ 64 := by
        have h2 : (2 : Nat) ^ (7 * (i + 1)) ≤ 2 ^ 64 :=
          Nat.pow_le_pow_right (by omega) (by omega)
        omega
      have hy' : y / 128 * 2 ^ (7 * (i + 1)) < 2 ^ 64 := by
        have h3 : 2 ^ (7 * (i + 1)) = 2 ^ (7 * i) * 128 := by
          rw [show 7 * (i + 1) = 7 * i + 7 by ring, pow_add]
          norm_num
        have h4 : y / 128 * 2 ^ (7 * (i + 1)) ≤ y * 2 ^ (7 * i) := by
          rw [h3]
          calc y / 128 * (2 ^ (7 * i) * 128) = y / 128 * 128 * 2 ^ (7 * i) := by ring
          _ ≤ y * 2 ^ (7 * i) := Nat.mul_le_mul_right _ (Nat.div_mul_le_self y 128)
        omega
      rw [hput]
      simp only [List.cons_append]
      unfold uvarintAux
      rw [if_neg (by omega)]
      have hmod : (y % 128 + 128) % 128 = y % 128 := by omega
      rw [hmod]
      have hmodid : (acc + y % 128 * 2 ^ (7 * i)) % 2 ^ 64 = acc + y % 128 * 2 ^ (7 * i) :=
        Nat.mod_eq_of_lt hacc64
      rw [hmodid]
      have hrec := ih (y / 128) (Nat.div_lt_self (by omega) (by omega)) (i + 1)
        (acc + y % 128 * 2 ^ (7 * i)) rest (by omega) hy' hacc'
      rw [show 7 * i + 7 = 7 * (i + 1) by ring, hrec]
      refine Prod.ext ?_ ?_
      · dsimp only
        rw [Nat.add_assoc, hstep]
      · dsimp only
        simp only [List.length_cons, Int.ofNat_eq_natCast]
        omega

theorem uvarint_put (x : Nat) (rest : List Nat) (hx : x < 2 ^ 64) :
    uvarint (putUvarint x ++ rest) =
      (x, Int.ofNat (putUvarint x).length) := by
  unfold uvarint
  have := uvarintAux_put x 0 0 rest (by omega) (by simpa using hx) (by simp)
  simp only [Nat.mul_zero, pow_zero, Nat.mul_one, Nat.zero_add] at this
  rw [Nat.mod_eq_of_lt hx] at this
  exact this

theorem putUvarint_len_le10 (x : Nat) (hx : x < 2 ^ 64) : (putUvarint x).length ≤ 10 := by
  apply putUvarint_len_le 10 x (by omega)
  calc x < 2 ^ 64 := hx
  _ ≤ 128 ^ 10 := by norm_num

end Rsync

namespace Rsync

theorem goSlice_to_end (l : List Nat) (i : Nat) (h : i ≤ l.length) :
    goSlice l i l.length = some (l.drop i) := by
  unfold goSlice
  rw [if_pos ⟨h, le_refl _⟩]
  congr 1
  apply List.take_of_length_le
  simp only [List.length_drop]
  omega

theorem toNat_ofNatAux : ∀ n : Nat, (Int.ofNat n).toNat = n := fun _ => rfl

theorem readSigStep (f : Nat) (rb : SBuf) (acc : List BlockHash) (e : BlockHash)
    (R : List Nat)
    (h1 : rb.tail ≤ rb.head) (h2 : rb.head ≤ rb.backer.length)
    (hcap : rb.backer.length = 32768)
    (hcont : sbContent rb = encodeSigRecord e ++ R)
    (hI : e.index < 2 ^ 64) (hW : e.weakHash < 2 ^ 32)
    (hS : e.strongHash.length ≤ maxHashLength) :
    ∃ rb' eof₁, sbContent rb' = R ∧ rb'.tail ≤ rb'.head ∧ rb'.head ≤ rb'.backer.length ∧
      rb'.backer.length = 32768 ∧
      (eof₁ = true ↔ (encodeSigRecord e ++ R).length < 24) ∧
      readSigLoop (f + 1) rb acc =
        (if eof₁ = true then some (acc ++ [e]) else readSigLoop f rb' (acc ++ [e])) := by
  have hS' : e.strongHash.length ≤ 6144 := hS
  have hS64 : e.strongHash.length < 2 ^ 64 := by omega
  have hLa1 : 1 ≤ (putUvarint e.index).length := putUvarint_len_pos _
  have hLa10 : (putUvarint e.index).length ≤ 10 := putUvarint_len_le10 _ hI
  have hLw : (putUint32BE e.weakHash).length = 4 := by
    unfold putUint32BE
    rfl
  have hLc1 : 1 ≤ (putUvarint e.strongHash.length).length := putUvarint_len_pos _
  have hLc10 : (putUvarint e.strongHash.length).length ≤ 10 := putUvarint_len_le10 _ hS64
  have hE : encodeSigRecord e = (((putUvarint e.index) ++ (putUint32BE e.weakHash)) ++ (putUvarint e.strongHash.length)) ++ e.strongHash := by
    unfold encodeSigRecord
    rw [Nat.mod_eq_of_lt hI, Nat.mod_eq_of_lt hW, Nat.mod_eq_of_lt hS64]
  have hcontE : sbContent rb =
      (putUvarint e.index) ++ ((putUint32BE e.weakHash) ++ ((putUvarint e.strongHash.length) ++ (e.strongHash ++ R))) := by
    rw [hcont, hE]
    simp only [List.append_assoc]
  have hCL : (sbContent rb).length =
      (putUvarint e.index).length + (4 + ((putUvarint e.strongHash.length).length + (e.strongHash.length + R.length))) := by
    rw [hcontE]
    simp only [List.length_append, hLw]
  obtain ⟨eof₁, rb₁, hnext, hiff, hpres, hwf11, hwf12, hcap1, hmin1⟩ :=
    sbNext_some rb 24 h1 h2 (by omega)
  have hbytes : (sbContent rb).take 24 =
      (putUvarint e.index) ++ (((putUint32BE e.weakHash) ++ ((putUvarint e.strongHash.length) ++ (e.strongHash ++ R))).take (24 - (putUvarint e.index).length)) := by
    rw [hcontE]
    exact take_append_ge _ _ 24 (by omega)
  have hTlen : (((putUint32BE e.weakHash) ++ ((putUvarint e.strongHash.length) ++ (e.strongHash ++ R))).take (24 - (putUvarint e.index).length)).length =
      min (24 - (putUvarint e.index).length) (4 + ((putUvarint e.strongHash.length).length + (e.strongHash.length + R.length))) := by
    simp only [List.length_take, List.length_append, hLw]
  rw [hbytes] at hnext
  have huv1 : uvarint ((putUvarint e.index) ++ (((putUint32BE e.weakHash) ++ ((putUvarint e.strongHash.length) ++ (e.strongHash ++ R))).take (24 - (putUvarint e.index).length))) =
      (e.index, Int.ofNat (putUvarint e.index).length) := uvarint_put e.index _ hI
  have hw0 : goIdx ((putUvarint e.index) ++ (((putUint32BE e.weakHash) ++ ((putUvarint e.strongHash.length) ++ (e.strongHash ++ R))).take (24 - (putUvarint e.index).length)))
      (putUvarint e.index).length = some (e.weakHash / 2 ^ 24 % 256) := by
    rw [show (putUvarint e.index).length = (putUvarint e.index).length + 0 by omega, goIdx_append_right, goIdx_take _ _ _ (by omega),
      goIdx_append_left _ _ _ (by omega)]
    rfl
  have hw1 : goIdx ((putUvarint e.index) ++ (((putUint32BE e.weakHash) ++ ((putUvarint e.strongHash.length) ++ (e.strongHash ++ R))).take (24 - (putUvarint e.index).length)))
      ((putUvarint e.index).length + 1) = some (e.weakHash / 2 ^ 16 % 256) := by
    rw [goIdx_append_right, goIdx_take _ _ _ (by omega), goIdx_append_left _ _ _ (by omega)]
    rfl
  have hw2 : goIdx ((putUvarint e.index) ++ (((putUint32BE e.weakHash) ++ ((putUvarint e.strongHash.length) ++ (e.strongHash ++ R))).take (24 - (putUvarint e.index).length)))
      ((putUvarint e.index).length + 2) = some (e.weakHash / 2 ^ 8 % 256) := by
    rw [goIdx_append_right, goIdx_take _ _ _ (by omega), goIdx_append_left _ _ _ (by omega)]
    rfl
  have hw3 : goIdx ((putUvarint e.index) ++ (((putUint32BE e.weakHash) ++ ((putUvarint e.strongHash.length) ++ (e.strongHash ++ R))).take (24 - (putUvarint e.index).length)))
      ((putUvarint e.index).length + 3) = some (e.weakHash % 256) := by
    rw [goIdx_append_right, goIdx_take _ _ _ (by omega), goIdx_append_left _ _ _ (by omega)]
    rfl
  have hweak : e.weakHash / 2 ^ 24 % 256 * 2 ^ 24 + e.weakHash / 2 ^ 16 % 256 * 2 ^ 16 +
      e.weakHash / 2 ^ 8 % 256 * 2 ^ 8 + e.weakHash % 256 = e.weakHash := by
    omega
  have hblen : (putUvarint e.index).length + 4 ≤
      ((putUvarint e.index) ++ (((putUint32BE e.weakHash) ++ ((putUvarint e.strongHash.length) ++ (e.strongHash ++ R))).take (24 - (putUvarint e.index).length))).length := by
    simp only [List.length_append, hTlen]
    omega
  have hslice1 := goSlice_to_end
    ((putUvarint e.index) ++ (((putUint32BE e.weakHash) ++ ((putUvarint e.strongHash.length) ++ (e.strongHash ++ R))).take (24 - (putUvarint e.index).length)))
    ((putUvarint e.index).length + 4) hblen
  have h4drop : ((putUint32BE e.weakHash) ++ ((putUvarint e.strongHash.length) ++ (e.strongHash ++ R))).drop 4 = (putUvarint e.strongHash.length) ++ (e.strongHash ++ R) := by
    rw [← hLw]
    exact List.drop_left _ _
  have hrest1 : ((putUvarint e.index) ++ (((putUint32BE e.weakHash) ++ ((putUvarint e.strongHash.length) ++ (e.strongHash ++ R))).take (24 - (putUvarint e.index).length))).drop
      ((putUvarint e.index).length + 4) =
      (putUvarint e.strongHash.length) ++ ((e.strongHash ++ R).take (24 - (putUvarint e.index).length - 4 - (putUvarint e.strongHash.length).length)) := by
    rw [List.drop_append, List.drop_take, h4drop, take_append_ge _ _ _ (by omega)]
  rw [hrest1] at hslice1
  have huv2 : uvarint ((putUvarint e.strongHash.length) ++ ((e.strongHash ++ R).take (24 - (putUvarint e.index).length - 4 - (putUvarint e.strongHash.length).length))) =
      (e.strongHash.length, Int.ofNat (putUvarint e.strongHash.length).length) := uvarint_put _ _ hS64
  have hat3 : (putUvarint e.index).length + 4 ≤ rb₁.head - rb₁.tail ∧
      (putUvarint e.index).length + 4 + (putUvarint e.strongHash.length).length ≤ rb₁.head - rb₁.tail := by
    constructor <;> omega
  obtain ⟨rb₂, hused1, hcont2, hwf21, hwf22, hcap2⟩ :=
    sbUsed_content rb₁ ((putUvarint e.index).length + 4 + (putUvarint e.strongHash.length).length) hwf12 (by omega)
  rw [hpres] at hcont2
  have hHlen : (((putUvarint e.index) ++ (putUint32BE e.weakHash)) ++ (putUvarint e.strongHash.length)).length = (putUvarint e.index).length + 4 + (putUvarint e.strongHash.length).length := by
    simp only [List.length_append, hLw]
  have hcont2' : sbContent rb₂ = e.strongHash ++ R := by
    rw [hcont2, hcont, hE, List.append_assoc, ← hHlen, List.drop_left]
  obtain ⟨eof₂, rb₃, hnext2, hiff2, hpres2, hwf31, hwf32, hcap3, hmin2⟩ :=
    sbNext_some rb₂ e.strongHash.length hwf21 hwf22 (by omega)
  have htake2 : (sbContent rb₂).take e.strongHash.length = e.strongHash := by
    rw [hcont2']
    exact List.take_left _ _
  rw [htake2] at hnext2
  have hlen2 : (sbContent rb₂).length = e.strongHash.length + R.length := by
    rw [hcont2']
    simp only [List.length_append]
  have heof2 : eof₂ = false := by
    cases hfe2 : eof₂ with
    | true =>
      have := hiff2.mp hfe2
      omega
    | false => rfl
  have hs3 : goSlice e.strongHash 0 e.strongHash.length = some e.strongHash := by
    have := goSlice_to_end e.strongHash 0 (by omega)
    simpa using this
  obtain ⟨rb₄, hused2, hcont4, hwf41, hwf42, hcap4⟩ :=
    sbUsed_content rb₃ e.strongHash.length hwf32 (by omega)
  rw [hpres2, hcont2'] at hcont4
  have hcont4' : sbContent rb₄ = R := by
    rw [hcont4, List.drop_left]
  refine ⟨rb₄, eof₁, hcont4', hwf41, hwf42, by omega, by rw [← hcont]; exact hiff, ?_⟩
  simp only [readSigLoop]
  rw [hnext]
  dsimp only
  rw [if_neg (by simp only [List.length_append]; omega)]
  rw [huv1]
  dsimp only
  rw [if_neg (by simp only [Int.ofNat_eq_natCast]; omega)]
  rw [toNat_ofNatAux]
  rw [hw0, hw1, hw2, hw3]
  dsimp only
  rw [hslice1]
  dsimp only
  rw [huv2]
  dsimp only
  rw [if_neg (by simp only [Int.ofNat_eq_natCast]; omega)]
  rw [toNat_ofNatAux]
  rw [if_neg (by omega)]
  rw [hused1]
  dsimp only
  rw [hnext2]
  dsimp only
  rw [hs3]
  dsimp only
  rw [hused2]
  dsimp only
  rw [hweak, heof2]
  simp only [Bool.false_eq_true, or_false]

end Rsync

namespace Rsync

theorem encodeSignature_cons (e : BlockHash) (rest : List BlockHash) :
    encodeSignature (e :: rest) = encodeSigRecord e ++ encodeSignature rest := by
  unfold encodeSignature
  simp

theorem encodeSignature_len_ge : ∀ (sig : List BlockHash),
    sig.length ≤ (encodeSignature sig).length := by
  intro sig
  induction sig with
  | nil => simp [encodeSignature]
  | cons e rest ih =>
    rw [encodeSignature_cons]
    simp only [List.length_append, List.length_cons]
    have h1 : 1 ≤ (encodeSigRecord e).length := by
      unfold encodeSigRecord
      simp only [List.length_append]
      have := putUvarint_len_pos (e.index % 2 ^ 64)
      omega
    omega

theorem readSigLoop_rt : ∀ (sig : List BlockHash) (fuel : Nat) (rb : SBuf)
    (acc : List BlockHash),
    rb.tail ≤ rb.head → rb.head ≤ rb.backer.length → rb.backer.length = 32768 →
    sbContent rb = encodeSignature sig →
    (∀ e ∈ sig, e.index < 2 ^ 64 ∧ e.weakHash < 2 ^ 32 ∧
      e.strongHash.length ≤ maxHashLength) →
    (∀ s : List BlockHash, s <:+ sig → 2 ≤ s.length → 24 ≤ (encodeSignature s).length) →
    sig.length + 1 ≤ fuel →
    readSigLoop fuel rb acc = some (acc ++ sig) := by
  intro sig
  induction sig with
  | nil =>
    intro fuel rb acc h1 h2 hcap hcont hents hsfx hfuel
    obtain ⟨f, rfl⟩ : ∃ f, fuel = f + 1 := ⟨fuel - 1, by omega⟩
    obtain ⟨eof, rb₁, hnext, -⟩ := sbNext_some rb 24 h1 h2 (by omega)
    have hc0 : sbContent rb = [] := by
      rw [hcont]
      simp [encodeSignature]
    rw [hc0] at hnext
    simp only [List.take_nil] at hnext
    simp only [readSigLoop]
    rw [hnext]
    dsimp only
    rw [if_pos (show (([] : List Nat).length = 0) from rfl)]
    simp
  | cons e rest ih =>
    intro fuel rb acc h1 h2 hcap hcont hents hsfx hfuel
    obtain ⟨f, rfl⟩ : ∃ f, fuel = f + 1 := ⟨fuel - 1, by omega⟩
    obtain ⟨hI, hW, hS⟩ := hents e (List.mem_cons_self e rest)
    have hcont' : sbContent rb = encodeSigRecord e ++ encodeSignature rest := by
      rw [hcont, encodeSignature_cons]
    obtain ⟨rb', eof₁, hc', hw1, hw2, hcapn, hiff, hrun⟩ :=
      readSigStep f rb acc e (encodeSignature rest) h1 h2 hcap hcont' hI hW hS
    rw [hrun]
    cases heof : eof₁ with
    | true =>
      cases rest with
      | nil => simp
      | cons c cs =>
        have hlt := hiff.mp heof
        have h24 := hsfx (e :: c :: cs) (List.suffix_refl _) (by simp)
        rw [encodeSignature_cons] at h24
        omega
    | false =>
      simp only [Bool.false_eq_true, if_false]
      have := ih f rb' (acc ++ [e]) hw1 hw2 hcapn hc'
        (fun e' he' => hents e' (List.mem_cons_of_mem e he'))
        (fun s hs hl => hsfx s (hs.trans (List.suffix_cons e rest)) hl)
        (by simp only [List.length_cons] at hfuel; omega)
      rw [this]
      simp

theorem readAllSignatures_rt (sig : List BlockHash)
    (hents : ∀ e ∈ sig, e.index < 2 ^ 64 ∧ e.weakHash < 2 ^ 32 ∧
      e.strongHash.length ≤ maxHashLength)
    (hsfx : ∀ s : List BlockHash, s <:+ sig → 2 ≤ s.length →
      24 ≤ (encodeSignature s).length) :
    readAllSignatures (encodeSignature sig) = some sig := by
  unfold readAllSignatures
  have hcontI : sbContent ⟨List.replicate 32768 0, 0, 0, encodeSignature sig⟩ =
      encodeSignature sig := by
    unfold sbContent
    dsimp only
    rw [Nat.sub_zero, List.take_zero, List.nil_append]
  have := readSigLoop_rt sig ((encodeSignature sig).length + 2)
    ⟨List.replicate 32768 0, 0, 0, encodeSignature sig⟩ []
    (Nat.le_refl 0)
    (by dsimp only; rw [List.length_replicate]; omega)
    (by dsimp only; rw [List.length_replicate])
    hcontI hents hsfx
    (by have := encodeSignature_len_ge sig; omega)
  rw [this, List.nil_append]

end Rsync

namespace Rsync

theorem readOpsStepBlock (f : Nat) (rb : SBuf) (accM accH : List POperation)
    (bi : Nat) (R : List Nat)
    (h1 : rb.tail ≤ rb.head) (h2 : rb.head ≤ rb.backer.length)
    (hcap : rb.backer.length = 32768)
    (hbi : bi < 2 ^ 64) (hfit : 1 + (putUvarint bi).length ≤ 10)
    (hcont : sbContent rb = (POpBlock :: putUvarint bi) ++ R) :
    ∃ rb' eof₁, sbContent rb' = R ∧ rb'.tail ≤ rb'.head ∧ rb'.head ≤ rb'.backer.length ∧
      rb'.backer.length = 32768 ∧
      (eof₁ = true ↔ ((POpBlock :: putUvarint bi) ++ R).length < 10) ∧
      readOpsLoop (f + 1) rb accM accH =
        (if eof₁ = true then some (accM ++ [⟨POpBlock, bi, 0, []⟩], accH)
         else readOpsLoop f rb' (accM ++ [⟨POpBlock, bi, 0, []⟩]) accH) := by
  have hLa1 : 1 ≤ (putUvarint bi).length := putUvarint_len_pos _
  have hcontE : sbContent rb = POpBlock :: (putUvarint bi ++ R) := by
    rw [hcont]
    rfl
  have hCL : (sbContent rb).length = 1 + ((putUvarint bi).length + R.length) := by
    rw [hcontE]
    simp only [List.length_cons, List.length_append]
    omega
  obtain ⟨eof₁, rb₁, hnext, hiff, hpres, hwf11, hwf12, hcap1, hmin1⟩ :=
    sbNext_some rb 10 h1 h2 (by omega)
  have hbytes : (sbContent rb).take 10 =
      POpBlock :: ((putUvarint bi ++ R).take 9) := by
    rw [hcontE]
    rfl
  rw [hbytes] at hnext
  have htk9 : (putUvarint bi ++ R).take 9 =
      putUvarint bi ++ R.take (9 - (putUvarint bi).length) :=
    take_append_ge _ _ 9 (by omega)
  have hid0 : goIdx (POpBlock :: ((putUvarint bi ++ R).take 9)) 0 = some POpBlock := rfl
  have hblen : 1 ≤ (POpBlock :: ((putUvarint bi ++ R).take 9)).length := by
    simp only [List.length_cons]
    omega
  have hslice1 := goSlice_to_end (POpBlock :: ((putUvarint bi ++ R).take 9)) 1 hblen
  have hdrop1 : (POpBlock :: ((putUvarint bi ++ R).take 9)).drop 1 =
      putUvarint bi ++ R.take (9 - (putUvarint bi).length) := by
    rw [List.drop_one, List.tail_cons, htk9]
  rw [hdrop1] at hslice1
  have huv1 : uvarint (putUvarint bi ++ R.take (9 - (putUvarint bi).length)) =
      (bi, Int.ofNat (putUvarint bi).length) := uvarint_put bi _ hbi
  obtain ⟨rb₂, hused1, hcont2, hwf21, hwf22, hcap2⟩ :=
    sbUsed_content rb₁ (1 + (putUvarint bi).length) hwf12 (by omega)
  rw [hpres] at hcont2
  have hcont2' : sbContent rb₂ = R := by
    rw [hcont2, hcont,
      show ((POpBlock :: putUvarint bi) ++ R).drop (1 + (putUvarint bi).length) =
        ((POpBlock :: putUvarint bi) ++ R).drop (POpBlock :: putUvarint bi).length from by
          simp only [List.length_cons]
          congr 1
          omega,
      List.drop_left]
  refine ⟨rb₂, eof₁, hcont2', hwf21, hwf22, by omega, by rw [← hcont]; exact hiff, ?_⟩
  simp only [readOpsLoop]
  rw [hnext]
  dsimp only
  rw [if_neg (by simp only [List.length_cons]; omega)]
  rw [hid0]
  dsimp only
  rw [if_pos rfl]
  rw [hslice1]
  dsimp only
  rw [huv1]
  dsimp only
  rw [if_neg (by simp only [Int.ofNat_eq_natCast]; omega)]
  rw [toNat_ofNatAux]
  rw [hused1]
  dsimp only
  have h03 : ¬(POpBlock = POpHash) := by
    unfold POpBlock POpHash
    omega
  simp only [if_neg h03, Bool.false_eq_true, or_false]

end Rsync

namespace Rsync

theorem readOpsStepRange (f : Nat) (rb : SBuf) (accM accH : List POperation)
    (bi be : Nat) (R : List Nat)
    (h1 : rb.tail ≤ rb.head) (h2 : rb.head ≤ rb.backer.length)
    (hcap : rb.backer.length = 32768)
    (hbi : bi < 2 ^ 64) (hbe : be < 2 ^ 64)
    (hfit : 1 + (putUvarint bi).length + (putUvarint be).length ≤ 10)
    (hcont : sbContent rb = (POpBlockRange :: (putUvarint bi ++ putUvarint be)) ++ R) :
    ∃ rb' eof₁, sbContent rb' = R ∧ rb'.tail ≤ rb'.head ∧ rb'.head ≤ rb'.backer.length ∧
      rb'.backer.length = 32768 ∧
      (eof₁ = true ↔ ((POpBlockRange :: (putUvarint bi ++ putUvarint be)) ++ R).length < 10) ∧
      readOpsLoop (f + 1) rb accM accH =
        (if eof₁ = true then some (accM ++ [⟨POpBlockRange, bi, be, []⟩], accH)
         else readOpsLoop f rb' (accM ++ [⟨POpBlockRange, bi, be, []⟩]) accH) := by
  have hLa1 : 1 ≤ (putUvarint bi).length := putUvarint_len_pos _
  have hLb1 : 1 ≤ (putUvarint be).length := putUvarint_len_pos _
  have hcontE : sbContent rb =
      POpBlockRange :: (putUvarint bi ++ (putUvarint be ++ R)) := by
    rw [hcont]
    simp only [List.cons_append, List.append_assoc]
  have hCL : (sbContent rb).length =
      1 + ((putUvarint bi).length + ((putUvarint be).length + R.length)) := by
    rw [hcontE]
    simp only [List.length_cons, List.length_append]
    omega
  obtain ⟨eof₁, rb₁, hnext, hiff, hpres, hwf11, hwf12, hcap1, hmin1⟩ :=
    sbNext_some rb 10 h1 h2 (by omega)
  have hbytes : (sbContent rb).take 10 =
      POpBlockRange :: ((putUvarint bi ++ (putUvarint be ++ R)).take 9) := by
    rw [hcontE]
    rfl
  rw [hbytes] at hnext
  have hTlen : ((putUvarint bi ++ (putUvarint be ++ R)).take 9).length =
      min 9 ((putUvarint bi).length + ((putUvarint be).length + R.length)) := by
    simp only [List.length_take, List.length_append]
  have hid0 : goIdx (POpBlockRange :: ((putUvarint bi ++ (putUvarint be ++ R)).take 9)) 0 =
      some POpBlockRange := rfl
  have hblen1 : 1 ≤ (POpBlockRange :: ((putUvarint bi ++ (putUvarint be ++ R)).take 9)).length := by
    simp only [List.length_cons]
    omega
  have hslice1 := goSlice_to_end
    (POpBlockRange :: ((putUvarint bi ++ (putUvarint be ++ R)).take 9)) 1 hblen1
  have hdrop1 : (POpBlockRange :: ((putUvarint bi ++ (putUvarint be ++ R)).take 9)).drop 1 =
      putUvarint bi ++ ((putUvarint be ++ R).take (9 - (putUvarint bi).length)) := by
    rw [List.drop_one, List.tail_cons, take_append_ge _ _ 9 (by omega)]
  rw [hdrop1] at hslice1
  have huv1 : uvarint (putUvarint bi ++ ((putUvarint be ++ R).take (9 - (putUvarint bi).length))) =
      (bi, Int.ofNat (putUvarint bi).length) := uvarint_put bi _ hbi
  have hblen2 : 1 + (putUvarint bi).length ≤
      (POpBlockRange :: ((putUvarint bi ++ (putUvarint be ++ R)).take 9)).length := by
    simp only [List.length_cons, hTlen]
    omega
  have hslice2 := goSlice_to_end
    (POpBlockRange :: ((putUvarint bi ++ (putUvarint be ++ R)).take 9))
    (1 + (putUvarint bi).length) hblen2
  have hdrop2 : (POpBlockRange :: ((putUvarint bi ++ (putUvarint be ++ R)).take 9)).drop
      (1 + (putUvarint bi).length) =
      putUvarint be ++ (R.take (9 - (putUvarint bi).length - (putUvarint be).length)) := by
    rw [show 1 + (putUvarint bi).length = (putUvarint bi).length + 1 by omega,
      List.drop_succ_cons, List.drop_take, List.drop_left,
      take_append_ge _ _ _ (by omega)]
  rw [hdrop2] at hslice2
  have huv2 : uvarint (putUvarint be ++
      (R.take (9 - (putUvarint bi).length - (putUvarint be).length))) =
      (be, Int.ofNat (putUvarint be).length) := uvarint_put be _ hbe
  obtain ⟨rb₂, hused1, hcont2, hwf21, hwf22, hcap2⟩ :=
    sbUsed_content rb₁ (1 + (putUvarint bi).length + (putUvarint be).length) hwf12 (by omega)
  rw [hpres] at hcont2
  have hcont2' : sbContent rb₂ = R := by
    rw [hcont2, hcont,
      show ((POpBlockRange :: (putUvarint bi ++ putUvarint be)) ++ R).drop
          (1 + (putUvarint bi).length + (putUvarint be).length) =
        ((POpBlockRange :: (putUvarint bi ++ putUvarint be)) ++ R).drop
          (POpBlockRange :: (putUvarint bi ++ putUvarint be)).length from by
          simp only [List.length_cons, List.length_append]
          congr 1
          omega,
      List.drop_left]
  refine ⟨rb₂, eof₁, hcont2', hwf21, hwf22, by omega, by rw [← hcont]; exact hiff, ?_⟩
  simp only [readOpsLoop]
  rw [hnext]
  dsimp only
  rw [if_neg (by simp only [List.length_cons]; omega)]
  rw [hid0]
  dsimp only
  have h10 : ¬(POpBlockRange = POpBlock) := by
    unfold POpBlockRange POpBlock
    omega
  rw [if_neg h10, if_pos rfl]
  rw [hslice1]
  dsimp only
  rw [huv1]
  dsimp only
  rw [if_neg (by simp only [Int.ofNat_eq_natCast]; omega)]
  rw [toNat_ofNatAux]
  rw [hslice2]
  dsimp only
  rw [huv2]
  dsimp only
  rw [if_neg (by simp only [Int.ofNat_eq_natCast]; omega)]
  rw [toNat_ofNatAux]
  rw [hused1]
  dsimp only
  have h13 : ¬(POpBlockRange = POpHash) := by
    unfold POpBlockRange POpHash
    omega
  simp only [if_neg h13, Bool.false_eq_true, or_false]

theorem readOpsStepData (f : Nat) (rb : SBuf) (accM accH : List POperation)
    (t : Nat) (d R : List Nat)
    (h1 : rb.tail ≤ rb.head) (h2 : rb.head ≤ rb.backer.length)
    (hcap : rb.backer.length = 32768)
    (ht : t = POpData ∨ t = POpHash) (hdl : d.length ≤ 32768)
    (hcont : sbContent rb = (t :: (putUvarint d.length ++ d)) ++ R) :
    ∃ rb' eof₁, sbContent rb' = R ∧ rb'.tail ≤ rb'.head ∧ rb'.head ≤ rb'.backer.length ∧
      rb'.backer.length = 32768 ∧
      (eof₁ = true ↔ ((t :: (putUvarint d.length ++ d)) ++ R).length < 10) ∧
      readOpsLoop (f + 1) rb accM accH =
        (if eof₁ = true then
          some ((if t = POpHash then accM else accM ++ [⟨t, 0, 0, d⟩]),
                (if t = POpHash then accH ++ [⟨t, 0, 0, d⟩] else accH))
         else readOpsLoop f rb'
          (if t = POpHash then accM else accM ++ [⟨t, 0, 0, d⟩])
          (if t = POpHash then accH ++ [⟨t, 0, 0, d⟩] else accH)) := by
  have hdl64 : d.length < 2 ^ 64 := by omega
  have hLc1 : 1 ≤ (putUvarint d.length).length := putUvarint_len_pos _
  have hLc3 : (putUvarint d.length).length ≤ 3 := putUvarint_len_le 3 _ (by omega) (by omega)
  have hcontE : sbContent rb = t :: (putUvarint d.length ++ (d ++ R)) := by
    rw [hcont]
    simp only [List.cons_append, List.append_assoc]
  have hCL : (sbContent rb).length =
      1 + ((putUvarint d.length).length + (d.length + R.length)) := by
    rw [hcontE]
    simp only [List.length_cons, List.length_append]
    omega
  obtain ⟨eof₁, rb₁, hnext, hiff, hpres, hwf11, hwf12, hcap1, hmin1⟩ :=
    sbNext_some rb 10 h1 h2 (by omega)
  have hbytes : (sbContent rb).take 10 =
      t :: ((putUvarint d.length ++ (d ++ R)).take 9) := by
    rw [hcontE]
    rfl
  rw [hbytes] at hnext
  have hid0 : goIdx (t :: ((putUvarint d.length ++ (d ++ R)).take 9)) 0 = some t := rfl
  have hblen1 : 1 ≤ (t :: ((putUvarint d.length ++ (d ++ R)).take 9)).length := by
    simp only [List.length_cons]
    omega
  have hslice1 := goSlice_to_end (t :: ((putUvarint d.length ++ (d ++ R)).take 9)) 1 hblen1
  have hdrop1 : (t :: ((putUvarint d.length ++ (d ++ R)).take 9)).drop 1 =
      putUvarint d.length ++ ((d ++ R).take (9 - (putUvarint d.length).length)) := by
    rw [List.drop_one, List.tail_cons, take_append_ge _ _ 9 (by omega)]
  rw [hdrop1] at hslice1
  have huv1 : uvarint (putUvarint d.length ++
      ((d ++ R).take (9 - (putUvarint d.length).length))) =
      (d.length, Int.ofNat (putUvarint d.length).length) := uvarint_put _ _ hdl64
  obtain ⟨rb₂, hused1, hcont2, hwf21, hwf22, hcap2⟩ :=
    sbUsed_content rb₁ (1 + (putUvarint d.length).length) hwf12 (by omega)
  rw [hpres] at hcont2
  have hcont2' : sbContent rb₂ = d ++ R := by
    rw [hcont2, hcontE,
      show (t :: (putUvarint d.length ++ (d ++ R))).drop (1 + (putUvarint d.length).length) =
        (putUvarint d.length ++ (d ++ R)).drop (putUvarint d.length).length from by
          rw [show 1 + (putUvarint d.length).length = (putUvarint d.length).length + 1 by omega,
            List.drop_succ_cons],
      List.drop_left]
  obtain ⟨eof₂, rb₃, hnext2, hiff2, hpres2, hwf31, hwf32, hcap3, hmin2⟩ :=
    sbNext_some rb₂ d.length hwf21 hwf22 (by omega)
  have htake2 : (sbContent rb₂).take d.length = d := by
    rw [hcont2']
    exact List.take_left _ _
  rw [htake2] at hnext2
  have hlen2 : (sbContent rb₂).length = d.length + R.length := by
    rw [hcont2']
    simp only [List.length_append]
  have heof2 : eof₂ = false := by
    cases hfe2 : eof₂ with
    | true =>
      have := hiff2.mp hfe2
      omega
    | false => rfl
  have hs3 : goSlice d 0 d.length = some d := by
    have := goSlice_to_end d 0 (by omega)
    simpa using this
  obtain ⟨rb₄, hused2, hcont4, hwf41, hwf42, hcap4⟩ :=
    sbUsed_content rb₃ d.length hwf32 (by omega)
  rw [hpres2, hcont2'] at hcont4
  have hcont4' : sbContent rb₄ = R := by
    rw [hcont4, List.drop_left]
  refine ⟨rb₄, eof₁, hcont4', hwf41, hwf42, by omega, by rw [← hcont]; exact hiff, ?_⟩
  simp only [readOpsLoop]
  rw [hnext]
  dsimp only
  rw [if_neg (by simp only [List.length_cons]; omega)]
  rw [hid0]
  dsimp only
  have h20 : ¬(t = POpBlock) := by
    unfold POpData POpHash POpBlock at *
    omega
  have h21 : ¬(t = POpBlockRange) := by
    unfold POpData POpHash POpBlockRange at *
    omega
  rw [if_neg h20, if_neg h21, if_pos ht]
  rw [hslice1]
  dsimp only
  rw [huv1]
  dsimp only
  rw [if_neg (by simp only [Int.ofNat_eq_natCast]; omega)]
  rw [toNat_ofNatAux]
  rw [if_neg (by
    have hmdl : maxDataLength = 1048576 := rfl
    omega)]
  rw [hused1]
  dsimp only
  rw [hnext2]
  dsimp only
  rw [hs3]
  dsimp only
  rw [hused2]
  dsimp only
  rw [heof2]
  simp only [Bool.false_eq_true, or_false]

end Rsync

namespace Rsync

theorem encodeOps_cons_inv (op : POperation) (rest : List POperation) (body : List Nat)
    (h : encodeOps (op :: rest) = some body) :
    ∃ hdr body', encodeOpRecord op = some hdr ∧ encodeOps rest = some body' ∧
      body = hdr ++ body' := by
  unfold encodeOps at h
  cases h1 : encodeOpRecord op with
  | none =>
    rw [h1] at h
    cases h
  | some hdr =>
    rw [h1] at h
    cases h2 : encodeOps rest with
    | none =>
      rw [h2] at h
      cases h
    | some body' =>
      rw [h2] at h
      dsimp only at h
      cases h
      exact ⟨hdr, body', rfl, rfl, rfl⟩

theorem encodeOpRecord_len_pos (op : POperation) (hdr : List Nat)
    (h : encodeOpRecord op = some hdr) : 1 ≤ hdr.length := by
  unfold encodeOpRecord at h
  split at h
  · cases h
    simp
  · split at h
    · cases h
      simp
    · split at h
      · cases h
        simp
      · cases h

theorem encodeOps_len_ge : ∀ (ops : List POperation) (body : List Nat),
    encodeOps ops = some body → ops.length ≤ body.length := by
  intro ops
  induction ops with
  | nil =>
    intro body h
    unfold encodeOps at h
    cases h
    simp
  | cons op rest ih =>
    intro body h
    obtain ⟨hdr, body', hr, hrest, rfl⟩ := encodeOps_cons_inv op rest body h
    have h1 := encodeOpRecord_len_pos op hdr hr
    have h2 := ih body' hrest
    simp only [List.length_append, List.length_cons]
    omega

theorem readOpsLoop_rt : ∀ (ops : List POperation) (fuel : Nat) (rb : SBuf)
    (accM accH : List POperation) (body : List Nat),
    rb.tail ≤ rb.head → rb.head ≤ rb.backer.length → rb.backer.length = 32768 →
    encodeOps ops = some body →
    sbContent rb = body →
    (∀ op ∈ ops, op.wellFormed) →
    (∀ i, i + 2 ≤ ops.length → 10 ≤ ((encodeOps (ops.drop i)).getD []).length) →
    ops.length + 1 ≤ fuel →
    readOpsLoop fuel rb accM accH = some (accM ++ mainOps ops, accH ++ hashOps ops) := by
  intro ops
  induction ops with
  | nil =>
    intro fuel rb accM accH body h1 h2 hcap hbody hcont hents hwin hfuel
    obtain ⟨f, rfl⟩ : ∃ f, fuel = f + 1 := ⟨fuel - 1, by omega⟩
    have hb0 : body = [] := by
      unfold encodeOps at hbody
      cases hbody
      rfl
    subst hb0
    obtain ⟨eof, rb₁, hnext, -⟩ := sbNext_some rb 10 h1 h2 (by omega)
    rw [hcont] at hnext
    simp only [List.take_nil] at hnext
    simp only [readOpsLoop]
    rw [hnext]
    dsimp only
    rw [if_pos (show (([] : List Nat).length = 0) from rfl)]
    simp [mainOps, hashOps]
  | cons op rest ih =>
    intro fuel rb accM accH body h1 h2 hcap hbody hcont hents hwin hfuel
    obtain ⟨f, rfl⟩ : ∃ f, fuel = f + 1 := ⟨fuel - 1, by omega⟩
    obtain ⟨hdr, body', hrec, hrest, hsplit⟩ := encodeOps_cons_inv op rest body hbody
    have hwf := hents op (List.mem_cons_self op rest)
    have henonempty : ∀ c cs, rest = c :: cs →
        ¬((hdr ++ body').length < 10) := by
      intro c cs hrr hlt
      have h10 := hwin 0 (by rw [hrr]; simp)
      rw [List.drop_zero, hbody] at h10
      simp only [Option.getD_some] at h10
      rw [hsplit] at h10
      omega
    obtain ⟨t, bi, be, d⟩ := op
    rcases hwf with ⟨htyp, hbi, hbe0, hd0, hfit⟩ | ⟨htyp, hbi, hbe, hd0, hfit⟩ |
      ⟨htyp, hbi0, hbe0, hdl⟩
    · -- BLOCK
      dsimp only at htyp hbi hbe0 hd0 hfit
      subst htyp hbe0 hd0
      have hhdr : hdr = POpBlock :: putUvarint bi := by
        unfold encodeOpRecord at hrec
        rw [if_pos rfl] at hrec
        dsimp only at hrec
        rw [Nat.mod_eq_of_lt hbi] at hrec
        cases hrec
        rfl
      subst hhdr
      have hcont' : sbContent rb = (POpBlock :: putUvarint bi) ++ body' := by
        rw [hcont, hsplit]
      obtain ⟨rb', eof₁, hc', hw1, hw2, hcapn, hiff, hrun⟩ :=
        readOpsStepBlock f rb accM accH bi body' h1 h2 hcap hbi hfit hcont'
      rw [hrun]
      have hmOps : mainOps (⟨POpBlock, bi, 0, []⟩ :: rest) =
          ⟨POpBlock, bi, 0, []⟩ :: mainOps rest := by
        simp only [mainOps]
        rw [if_neg (by simp [POpBlock, POpHash])]
      have hhOps : hashOps (⟨POpBlock, bi, 0, []⟩ :: rest) = hashOps rest := by
        simp only [hashOps]
        rw [if_neg (by simp [POpBlock, POpHash])]
      rw [hmOps, hhOps]
      cases heof : eof₁ with
      | true =>
        cases rest with
        | nil => simp [mainOps, hashOps]
        | cons c cs => exact absurd (hiff.mp heof) (henonempty c cs rfl)
      | false =>
        simp only [Bool.false_eq_true, if_false]
        rw [ih f rb' (accM ++ [(⟨POpBlock, bi, 0, []⟩ : POperation)]) accH body' hw1 hw2 hcapn hrest hc'
          (fun op' ho' => hents op' (List.mem_cons_of_mem _ ho'))
          (fun i hi => by
            have := hwin (i + 1) (by simp only [List.length_cons]; omega)
            simpa using this)
          (by simp only [List.length_cons] at hfuel; omega)]
        simp
    · -- BLOCK_RANGE
      dsimp only at htyp hbi hbe hd0 hfit
      subst htyp hd0
      have hhdr : hdr = POpBlockRange :: (putUvarint bi ++ putUvarint be) := by
        unfold encodeOpRecord at hrec
        rw [if_neg (by simp [POpBlockRange, POpBlock]), if_pos rfl] at hrec
        dsimp only at hrec
        rw [Nat.mod_eq_of_lt hbi, Nat.mod_eq_of_lt hbe] at hrec
        cases hrec
        rfl
      subst hhdr
      have hcont' : sbContent rb =
          (POpBlockRange :: (putUvarint bi ++ putUvarint be)) ++ body' := by
        rw [hcont, hsplit]
      obtain ⟨rb', eof₁, hc', hw1, hw2, hcapn, hiff, hrun⟩ :=
        readOpsStepRange f rb accM accH bi be body' h1 h2 hcap hbi hbe hfit hcont'
      rw [hrun]
      have hmOps : mainOps (⟨POpBlockRange, bi, be, []⟩ :: rest) =
          ⟨POpBlockRange, bi, be, []⟩ :: mainOps rest := by
        simp only [mainOps]
        rw [if_neg (by simp [POpBlockRange, POpHash])]
      have hhOps : hashOps (⟨POpBlockRange, bi, be, []⟩ :: rest) = hashOps rest := by
        simp only [hashOps]
        rw [if_neg (by simp [POpBlockRange, POpHash])]
      rw [hmOps, hhOps]
      cases heof : eof₁ with
      | true =>
        cases rest with
        | nil => simp [mainOps, hashOps]
        | cons c cs => exact absurd (hiff.mp heof) (henonempty c cs rfl)
      | false =>
        simp only [Bool.false_eq_true, if_false]
        rw [ih f rb' (accM ++ [(⟨POpBlockRange, bi, be, []⟩ : POperation)]) accH body' hw1 hw2 hcapn hrest hc'
          (fun op' ho' => hents op' (List.mem_cons_of_mem _ ho'))
          (fun i hi => by
            have := hwin (i + 1) (by simp only [List.length_cons]; omega)
            simpa using this)
          (by simp only [List.length_cons] at hfuel; omega)]
        simp
    · -- DATA / HASH
      dsimp only at htyp hbi0 hbe0 hdl
      subst hbi0 hbe0
      have hhdr : hdr = t :: (putUvarint d.length ++ d) := by
        unfold encodeOpRecord at hrec
        rw [if_neg (by rcases htyp with h | h <;> simp [h, POpData, POpHash, POpBlock]),
          if_neg (by rcases htyp with h | h <;> simp [h, POpData, POpHash, POpBlockRange]),
          if_pos htyp] at hrec
        dsimp only at hrec
        rw [Nat.mod_eq_of_lt (show d.length < 2 ^ 64 by omega)] at hrec
        cases hrec
        rfl
      subst hhdr
      have hcont' : sbContent rb = (t :: (putUvarint d.length ++ d)) ++ body' := by
        rw [hcont, hsplit]
      obtain ⟨rb', eof₁, hc', hw1, hw2, hcapn, hiff, hrun⟩ :=
        readOpsStepData f rb accM accH t d body' h1 h2 hcap htyp hdl hcont'
      rw [hrun]
      have hmOps : mainOps (⟨t, 0, 0, d⟩ :: rest) =
          (if t = POpHash then mainOps rest else ⟨t, 0, 0, d⟩ :: mainOps rest) := by
        simp only [mainOps]
      have hhOps : hashOps (⟨t, 0, 0, d⟩ :: rest) =
          (if t = POpHash then ⟨t, 0, 0, d⟩ :: hashOps rest else hashOps rest) := by
        simp only [hashOps]
      rw [hmOps, hhOps]
      cases heof : eof₁ with
      | true =>
        cases rest with
        | nil =>
          by_cases h3 : t = POpHash
          · simp [mainOps, hashOps, if_pos h3]
          · simp [mainOps, hashOps, if_neg h3]
        | cons c cs => exact absurd (hiff.mp heof) (henonempty c cs rfl)
      | false =>
        simp only [Bool.false_eq_true, if_false]
        rw [ih f rb' (if t = POpHash then accM else accM ++ [(⟨t, 0, 0, d⟩ : POperation)])
          (if t = POpHash then accH ++ [(⟨t, 0, 0, d⟩ : POperation)] else accH) body'
          hw1 hw2 hcapn hrest hc'
          (fun op' ho' => hents op' (List.mem_cons_of_mem _ ho'))
          (fun i hi => by
            have := hwin (i + 1) (by simp only [List.length_cons]; omega)
            simpa using this)
          (by simp only [List.length_cons] at hfuel; omega)]
        by_cases h3 : t = POpHash
        · simp [if_pos h3]
        · simp [if_neg h3]

theorem readOperations_rt (ops : List POperation) (body : List Nat)
    (hbody : encodeOps ops = some body)
    (hents : ∀ op ∈ ops, op.wellFormed)
    (hwin : ∀ i, i + 2 ≤ ops.length → 10 ≤ ((encodeOps (ops.drop i)).getD []).length) :
    readOperations body = some (mainOps ops, hashOps ops) := by
  unfold readOperations
  have hcontI : sbContent ⟨List.replicate 32768 0, 0, 0, body⟩ = body := by
    unfold sbContent
    dsimp only
    rw [Nat.sub_zero, List.take_zero, List.nil_append]
  have := readOpsLoop_rt ops (body.length + 2)
    ⟨List.replicate 32768 0, 0, 0, body⟩ [] [] body
    (Nat.le_refl 0)
    (by dsimp only; rw [List.length_replicate]; omega)
    (by dsimp only; rw [List.length_replicate])
    hbody hcontI hents hwin
    (by have := encodeOps_len_ge ops body hbody; omega)
  rw [this, List.nil_append, List.nil_append]

end Rsync

namespace Rsync

/-- **C7** (counterexample).  The frame round-trip fails: encoding the
two operations `BLOCK(1)`, `BLOCK(2)` yields the four bytes
`[0,1,0,2]`, but decoding them returns only `BLOCK(1)` — the reader's
first 10-byte window read hits `io.EOF`, and after parsing one record the
loop returns, discarding the second record still in the buffer. -/
theorem C7_roundtrip_counterexample :
    encodeOps [⟨POpBlock, 1, 0, []⟩, ⟨POpBlock, 2, 0, []⟩] = some [0, 1, 0, 2] ∧
    readOperations [0, 1, 0, 2] = some ([⟨POpBlock, 1, 0, []⟩], []) := by
  have hput1 : putUvarint 1 = [1] := by
    unfold putUvarint
    rfl
  have hput2 : putUvarint 2 = [2] := by
    unfold putUvarint
    rfl
  have henc : encodeOps [⟨POpBlock, 1, 0, []⟩, ⟨POpBlock, 2, 0, []⟩] =
      some [0, 1, 0, 2] := by
    simp only [encodeOps, encodeOpRecord, POpBlock, POpBlockRange, POpData, POpHash]
    norm_num [hput1, hput2]
  refine ⟨henc, ?_⟩
  have hcont : sbContent ⟨List.replicate 32768 0, 0, 0, [0, 1, 0, 2]⟩ =
      (POpBlock :: putUvarint 1) ++ [0, 2] := by
    unfold sbContent
    dsimp only
    rw [Nat.sub_zero, List.take_zero, List.nil_append, hput1]
    rfl
  obtain ⟨rb', eof₁, hc', hw1, hw2, hcapn, hiff, hrun⟩ :=
    readOpsStepBlock 5 ⟨List.replicate 32768 0, 0, 0, [0, 1, 0, 2]⟩ [] [] 1 [0, 2]
      (by dsimp only; omega) (by dsimp only; rw [List.length_replicate]; omega)
      (by dsimp only; rw [List.length_replicate]) (by omega) (by simp [hput1]) hcont
  have heof : eof₁ = true := hiff.mpr (by simp [hput1, POpBlock])
  unfold readOperations
  rw [show ([0, 1, 0, 2] : List Nat).length + 2 = 5 + 1 from rfl, hrun, heof]
  simp

theorem suffix_bound_of_drop_bound (sig : List BlockHash)
    (h : ∀ i, i + 2 ≤ sig.length → 24 ≤ (encodeSignature (sig.drop i)).length) :
    ∀ s : List BlockHash, s <:+ sig → 2 ≤ s.length → 24 ≤ (encodeSignature s).length := by
  intro s hs hl
  have hsd := List.suffix_iff_eq_drop.mp hs
  have hle := hs.length_le
  rw [hsd]
  exact h (sig.length - s.length) (by omega)

/-- **C7** (amended).  The frame round-trip holds for streams whose
records respect the reader's windows.  Signatures: every entry's index
fits `uint64`, its weak hash fits `uint32`, its digest is at most
`maxHashLength` bytes, and at every record boundary other than the last
at least 24 encoded bytes remain (the reader's window).  Operations:
every operation is `wellFormed` (known tag, untransmitted fields zero,
header within the 10-byte window, payload within the 32 KiB sbuffer), and
at every record boundary other than the last at least 10 encoded bytes
remain.  Then `ReadAllSignatures` returns exactly the written signature
list, and `ReadOperations` delivers exactly the written operations — the
non-`HASH` ones in order on the main channel, the `HASH` ones on the hash
channel.  Without the boundary condition the round-trip fails (see the
counterexample). -/
theorem C7_frame_roundtrip (sig : List BlockHash) (ops : List POperation) (body : List Nat)
    (hsig1 : ∀ e ∈ sig, e.index < 2 ^ 64 ∧ e.weakHash < 2 ^ 32 ∧
      e.strongHash.length ≤ maxHashLength)
    (hsig2 : ∀ i, i + 2 ≤ sig.length → 24 ≤ (encodeSignature (sig.drop i)).length)
    (hops1 : ∀ op ∈ ops, op.wellFormed)
    (hops2 : encodeOps ops = some body)
    (hops3 : ∀ i, i + 2 ≤ ops.length → 10 ≤ ((encodeOps (ops.drop i)).getD []).length) :
    readAllSignatures (encodeSignature sig) = some sig ∧
    readOperations body = some (mainOps ops, hashOps ops) :=
  ⟨readAllSignatures_rt sig hsig1 (suffix_bound_of_drop_bound sig hsig2),
   readOperations_rt ops body hops2 hops1 hops3⟩

theorem C7_frame_roundtrip_witness :
    readAllSignatures (encodeSignature [⟨1, [7], 5⟩]) = some [⟨1, [7], 5⟩] ∧
    readOperations [2, 1, 9] =
      some (mainOps [⟨POpData, 0, 0, [9]⟩], hashOps [⟨POpData, 0, 0, [9]⟩]) := by
  have hput1 : putUvarint 1 = [1] := by
    unfold putUvarint
    rfl
  refine C7_frame_roundtrip [⟨1, [7], 5⟩] [⟨POpData, 0, 0, [9]⟩] [2, 1, 9]
    (by decide) (fun i hi => absurd hi (by simp only [List.length_cons, List.length_nil]; omega)) ?_ ?_
    (fun i hi => absurd hi (by simp only [List.length_cons, List.length_nil]; omega))
  · intro op hop
    rcases List.mem_singleton.mp hop with rfl
    exact Or.inr (Or.inr ⟨Or.inl rfl, rfl, rfl, by simp⟩)
  · simp only [encodeOps, encodeOpRecord, POpData, POpBlock, POpBlockRange, POpHash]
    norm_num [hput1]

end Rsync
